/-
Verification of the LinkedIn-Job-Suitability-Analyzer sources.

Part 1 models the scraper (`src/linkedin-scraper.ts`): the DOM-to-text
rendering `htmlToFormattedText`, the whitespace cleanup applied to its
output, the saved record-file name/content, and the per-card harvesting
loop with its dedup against already-scraped job ids.

Part 2 models the analyzer (the unnamed analysis script): the analysis
cache (results.json), `loadAnalysisCache` / `saveAnalysisCache`,
`analyzeJobSuitability` (JSON parse of the service response, returned by
an unchecked cast), the `run` work-set computation and per-job loop, and
the two report generators.

JS strings are modelled as `List Char`; machine numbers that carry
scores are modelled as `Int`.
-/
import Mathlib

/-- JS strings, modelled as lists of characters. -/
abbrev Str := List Char

/-- The whitespace characters relevant to this code base (JS `trim`
trims all Unicode whitespace; the renderer only ever produces spaces,
newlines, tabs and carriage returns around text). -/
def isWSChar (c : Char) : Bool :=
  c = ' ' || c = '\n' || c = '\t' || c = '\r'

/-- Left trim: drop leading whitespace (JS `String.prototype.trimStart`). -/
def trimLeftW (s : Str) : Str := s.dropWhile isWSChar

/-- JS `String.prototype.trim`: drop leading and trailing whitespace. -/
def trimW (s : Str) : Str := ((s.dropWhile isWSChar).reverse.dropWhile isWSChar).reverse

/-- JS `String.prototype.toUpperCase` restricted to the ASCII range
(sufficient for the characters this program manipulates). -/
def toUpperW (s : Str) : Str := s.map Char.toUpper

/-- JS `s.split("\n")`: split a string at every newline; always returns
at least one (possibly empty) piece. -/
def splitNl : Str → List Str
  | [] => [[]]
  | c :: cs =>
    match splitNl cs with
    | [] => [[c]]
    | p :: ps => if c = '\n' then [] :: p :: ps else (c :: p) :: ps

/-- JS `lines.join("\n")`. -/
def joinNl : List Str → Str
  | [] => []
  | [p] => p
  | p :: ps => p ++ '\n' :: joinNl ps

/-- The cleanup the scraper applies to the rendered job-details text:
`formatted.split("\n").map(l => l.trim()).filter(l => l.length > 0).join("\n")`. -/
def cleanupText (s : Str) : Str :=
  joinNl (((splitNl s).map trimW).filter (fun l => decide (l ≠ [])))

mutual
/-- The element tree of the job-details panel. `text` is a DOM text
node (`Node.TEXT_NODE`), `elem` an element node with its lower-cased
tag name. -/
inductive DomNode where
  | text (s : Str)
  | elem (tag : String) (children : DomChildren)
deriving DecidableEq
/-- Child lists of a DOM element. -/
inductive DomChildren where
  | nil
  | cons (n : DomNode) (ns : DomChildren)
deriving DecidableEq
end

/-- The bullet marker the source prefixes to `li` contents (the source
file literally contains these bytes). -/
def bulletMark : Str := "â€¢ ".data

/-- Text contributed by one element, given the rendered concatenation
`inner` of its children: the tag dispatch of `htmlToFormattedText`. -/
def renderTag (tag : String) (inner : Str) : Str :=
  if tag = "br" then ['\n']
  else if tag = "p" then '\n' :: (trimW inner ++ ['\n'])
  else if tag = "div" then (if trimW inner ≠ [] then '\n' :: trimW inner else [])
  else if tag = "h1" ∨ tag = "h2" ∨ tag = "h3" ∨ tag = "h4" ∨ tag = "h5" ∨ tag = "h6" then
    '\n' :: '\n' :: (toUpperW (trimW inner) ++ ['\n'])
  else if tag = "li" then '\n' :: (bulletMark ++ trimW inner)
  else if tag = "ul" ∨ tag = "ol" then '\n' :: inner
  else if tag = "strong" ∨ tag = "b" then trimW inner ++ [' ']
  else if tag = "em" ∨ tag = "i" then trimW inner ++ [' ']
  else if tag = "span" then inner
  else if tag = "a" then inner
  else inner

mutual
/-- The function `htmlToFormattedText` on a single child node: a text node
contributes its trimmed content followed by a space when non-empty,
an element node contributes `renderTag` of its rendered children. -/
def renderNode : DomNode → Str
  | .text s => if trimW s ≠ [] then trimW s ++ [' '] else []
  | .elem tag cs => renderTag tag (renderChildren cs)
/-- The function `htmlToFormattedText` proper: concatenation over the child list. -/
def renderChildren : DomChildren → Str
  | .nil => []
  | .cons n ns => renderNode n ++ renderChildren ns
end

/-- The full conversion applied to the job-details element: recursive
render followed by the line cleanup. -/
def formattedDetailsText (panel : DomChildren) : Str :=
  cleanupText (renderChildren panel)

mutual
/-- A node none of whose text nodes carry non-whitespace content
(a "no text" node). -/
def noTextNode : DomNode → Bool
  | .text s => s.all isWSChar
  | .elem _ cs => noTextChildren cs
/-- Conjunction of `noTextNode` over a child list. -/
def noTextChildren : DomChildren → Bool
  | .nil => true
  | .cons n ns => noTextNode n && noTextChildren ns
end

mutual
/-- A node whose tree contains no `li` element. -/
def noLiNode : DomNode → Bool
  | .text _ => true
  | .elem tag cs => tag ≠ "li" && noLiChildren cs
/-- Conjunction of `noLiNode` over a child list. -/
def noLiChildren : DomChildren → Bool
  | .nil => true
  | .cons n ns => noLiNode n && noLiChildren ns
end

/-- The literal pattern of the job-link regex `/\/jobs\/view\/(\d+)/`. -/
def viewPat : Str := "/jobs/view/".data

/-- Whether `pat` occurs at the very start of `s`. -/
def leadsWith : Str → Str → Bool
  | [], _ => true
  | _ :: _, [] => false
  | p :: ps, c :: cs => p = c && leadsWith ps cs

/-- The match `href.match` against the job-link regex: the leftmost occurrence of
`/jobs/view/` followed by at least one digit yields the maximal digit
run after it; otherwise no match. -/
def extractViewId : Str → Option Str
  | [] => none
  | c :: cs =>
    if leadsWith viewPat (c :: cs) then
      let ds := ((c :: cs).drop viewPat.length).takeWhile Char.isDigit
      if ds ≠ [] then some ds else extractViewId cs
    else extractViewId cs

/-- One job card of the listing, as the scraper observes it: the first
anchor's `href` (`none` when the card has no anchor; a present anchor
with a missing attribute reads as `""` via `getAttribute("href") || ""`),
the job-details panel when it materializes, and the raw text of the
company and location elements (`none` when the element is missing or
its text content is null). -/
structure JobCard where
  href : Option Str
  panel : Option DomChildren
  company : Option Str
  location : Option Str
deriving DecidableEq

/-- Extraction of a page field with fallback: starts from "N/A", and when the
element exists and its text content is truthy, uses the trimmed text. -/
def fieldOrNA (t : Option Str) : Str :=
  match t with
  | none => "N/A".data
  | some s => if s ≠ [] then trimW s else "N/A".data

/-- The identifier the scraper derives for a card: parsed from the
anchor's href when the job-link regex matches, otherwise the
synthesized `job-${Date.now()}-${random}` string supplied as `fresh`. -/
def cardJobId (c : JobCard) (fresh : Str) : Str :=
  match c.href with
  | none => fresh
  | some h => (extractViewId h).getD fresh

/-- The file name a record is saved under: `${jobId}.txt`. -/
def recordFileName (jobId : Str) : Str := jobId ++ ".txt".data

/-- The file content a record is saved with:
`Company: ${company}\nLocation: ${location}\n\n${jobDetailsText.trim()}`. -/
def recordFileContent (company location : Str) (panel : DomChildren) : Str :=
  ("Company: ".data ++ company) ++ '\n' ::
    (("Location: ".data ++ location) ++ '\n' :: '\n' :: trimW (formattedDetailsText panel))

/-- The per-card loop of `scrapeLinkedInJobs`, restricted to its writes:
each card is paired with the synthesized identifier that would be used
if its link does not parse. A card whose identifier is already in
`existing` is skipped; a card whose details panel is missing is skipped;
otherwise a `(id, fileContent)` write is emitted. `existing` is loaded
once at startup and never extended during the run. -/
def harvestWrites (existing : List Str) : List (JobCard × Str) → List (Str × Str)
  | [] => []
  | (c, fresh) :: rest =>
    let id := cardJobId c fresh
    if id ∈ existing then harvestWrites existing rest
    else
      match c.panel with
      | none => harvestWrites existing rest
      | some panel =>
        (id, recordFileContent (fieldOrNA c.company) (fieldOrNA c.location) panel)
          :: harvestWrites existing rest

/-- The runtime shape of a parsed classification response. The source
declares the interface with required `suitability_status`/`match_score`,
but the value is produced by `JSON.parse` followed by an unchecked
`as JobSuitabilityResult` cast, so at runtime every field may be
absent; absence is modelled with `Option`. -/
structure JobSuitabilityResult where
  suitability_status : Option String
  match_score : Option Int
  key_strengths : Option (List String)
  key_gaps : Option (List String)
  reasoning : Option String
deriving DecidableEq

/-- What the classification call can yield before the analyzer's own
code runs: a thrown transport error or a `JSON.parse` failure
(`failure`), or a structurally parsed payload (`structured`). -/
inductive ServiceResponse where
  | failure (msg : String)
  | structured (p : JobSuitabilityResult)
deriving DecidableEq

/-- The analyzer's `analyzeJobSuitability` after the service call: the
response schema is only declared in the request config; locally the
code runs `JSON.parse(responseText)` and returns the result through an
unchecked cast. A throw (transport or parse) propagates as the error
case; any parsed payload is returned unchanged — there is no check of
`suitability_status`, `match_score`, score range, or `key_gaps` length,
and no clamping. -/
def analyzeJobSuitability : ServiceResponse → Except String JobSuitabilityResult
  | .failure m => .error m
  | .structured p => .ok p

/-- One entry of results.json. -/
structure AnalysisRecord where
  jobFile : String
  jobId : String
  linkedinUrl : String
  analyzedAt : String
  result : JobSuitabilityResult
deriving DecidableEq

/-- The in-memory `AnalysisCache` object: a JS object used as a map,
modelled as an association list in key-insertion order (plain
string-valued keys keep insertion order in JS). -/
abbrev AnalysisCache := List (String × AnalysisRecord)

/-- Whether a key is present (`!cache[fileName]` is false). -/
def cacheMem (cache : AnalysisCache) (k : String) : Bool :=
  cache.any (fun kv => kv.1 = k)

/-- Lookup of `cache[k]`. -/
def cacheGet (cache : AnalysisCache) (k : String) : Option AnalysisRecord :=
  (cache.find? (fun kv => kv.1 = k)).map Prod.snd

/-- Assignment `cache[k] = v`: an existing key keeps its position
(last-write-wins), a new key is appended. -/
def cacheSet (cache : AnalysisCache) (k : String) (v : AnalysisRecord) : AnalysisCache :=
  if cacheMem cache k then cache.map (fun kv => if kv.1 = k then (k, v) else kv)
  else cache ++ [(k, v)]

/-- JS `Object.values(cache)`. -/
def cacheValues (cache : AnalysisCache) : List AnalysisRecord :=
  cache.map Prod.snd

/-- The analyzer's `loadAnalysisCache`: the parsed contents of
results.json (`[]` when the file is absent) keyed by `jobFile` via
`records.forEach(record => cache[record.jobFile] = record)`. -/
def loadAnalysisCache (records : List AnalysisRecord) : AnalysisCache :=
  records.foldl (fun c r => cacheSet c r.jobFile r) []

/-- The value SortCompare sees from the comparator
`(a, b) => b.result.match_score - a.result.match_score`: when both
scores are numbers it is their difference; when either is absent the
subtraction yields `NaN`, which ECMAScript's SortCompare coerces to
`+0` ("compare equal"). On score-less entries this comparator is
therefore inconsistent and the persisted order is not guaranteed
sorted. -/
def scoreCmp (a b : AnalysisRecord) : Int :=
  match b.result.match_score, a.result.match_score with
  | some sb, some sa => sb - sa
  | _, _ => 0

/-- The keep-before relation of the stable sort: `a` stays no later
than `b` when the comparator value is ≤ 0. -/
def sortLE (a b : AnalysisRecord) : Prop :=
  scoreCmp a b ≤ 0

instance : DecidableRel sortLE :=
  fun a b => inferInstanceAs (Decidable (scoreCmp a b ≤ 0))

/-- Non-increasing scores, stated only on present scores: position
pairs where both entries carry numeric scores have the later score ≤
the earlier one. -/
def scoredGE (a b : AnalysisRecord) : Prop :=
  ∀ sa sb : Int, a.result.match_score = some sa → b.result.match_score = some sb → sb ≤ sa

/-- The analyzer's `saveAnalysisCache`: every call rewrites the whole
results.json with all cache values sorted by the descending-score
comparator. `Array.prototype.sort` is a stable comparison sort (the
concrete order under an inconsistent comparator is
implementation-defined; the stable `List.insertionSort` is one
conforming implementation). -/
def saveAnalysisCache (cache : AnalysisCache) : List AnalysisRecord :=
  List.insertionSort sortLE (cacheValues cache)

/-- JS `path.basename(fileName, ".txt")`: strip the suffix when
present. -/
def stripTxt (s : String) : String :=
  if s.endsWith ".txt" then s.dropRight 4 else s

/-- The derived LinkedIn URL of `getLinkedInUrl`. -/
def linkedInUrlOf (jobId : String) : String :=
  "https://www.linkedin.com/jobs/collections/recommended/?currentJobId=" ++ jobId

/-- The analyzer's `getLinkedInUrl`: job id and derived URL from a
record-store file name. -/
def getLinkedInUrl (fileName : String) : String × String :=
  (stripTxt fileName, linkedInUrlOf (stripTxt fileName))

/-- One file of the job-postings directory: its directory and its base
name (`path.basename`). -/
structure JobFile where
  dir : String
  name : String
deriving DecidableEq

/-- The work-set computation of `run`:
`jobFiles.filter(filePath => !cache[path.basename(filePath)])`. -/
def jobsToAnalyze (cache : AnalysisCache) (jobFiles : List JobFile) : List JobFile :=
  jobFiles.filter (fun f => !cacheMem cache f.name)

/-- The cache entry `run` builds for a successful analysis. -/
def mkAnalysisRecord (fileName now : String) (p : JobSuitabilityResult) : AnalysisRecord :=
  { jobFile := fileName, jobId := (getLinkedInUrl fileName).1,
    linkedinUrl := (getLinkedInUrl fileName).2, analyzedAt := now, result := p }

/-- The mutable state of the per-job loop of `run`: the in-memory
cache, the last-written contents of results.json, and the two
counters. -/
structure LoopState where
  cache : AnalysisCache
  disk : List AnalysisRecord
  successCount : Nat
  errorCount : Nat
deriving DecidableEq

/-- One iteration of the per-job loop of `run`. A thrown call or parse
error is caught per item and only counted. On a parsed payload the
entry is first assigned into the in-memory cache; the success log line
then evaluates `result.suitability_status.toUpperCase()`, which throws
when the status is absent — caught by the same per-item handler, so in
that case the loop counts an error and the incremental save is not
reached (the in-memory insertion survives). Otherwise the whole cache
is saved to disk before the next item. -/
def stepJob (svc : JobFile → ServiceResponse) (now : String) (st : LoopState) (f : JobFile) :
    LoopState :=
  match analyzeJobSuitability (svc f) with
  | .error _ => { st with errorCount := st.errorCount + 1 }
  | .ok p =>
    let cache1 := cacheSet st.cache f.name (mkAnalysisRecord f.name now p)
    match p.suitability_status with
    | none => { st with cache := cache1, errorCount := st.errorCount + 1 }
    | some _ =>
      { cache := cache1, disk := saveAnalysisCache cache1,
        successCount := st.successCount + 1, errorCount := st.errorCount }

/-- JS template interpolation of a possibly-absent number
(an absent field prints as "undefined"). -/
def numField (n : Option Int) : String :=
  match n with
  | some v => toString v
  | none => "undefined"

/-- The separator line of the reports: 80 equals signs. -/
def eqLine : String := String.mk (List.replicate 80 '=')

/-- The suitable entries of a results list, in list order. -/
def suitableResults (results : List AnalysisRecord) : List AnalysisRecord :=
  results.filter (fun r => r.result.suitability_status == some "suitable")

/-- The maybe-suitable entries of a results list, in list order. -/
def maybeResults (results : List AnalysisRecord) : List AnalysisRecord :=
  results.filter (fun r => r.result.suitability_status == some "maybe_suitable")

/-- The maybe-suitable entries the detailed summary report actually
renders: `maybe.slice(0, 20)`. -/
def summaryMaybeListed (results : List AnalysisRecord) : List AnalysisRecord :=
  (maybeResults results).take 20

/-- The strengths block of one suitable item (emitted only when the
list is present and non-empty). -/
def strengthLines (ss : Option (List String)) : String :=
  match ss with
  | some l =>
    if l.length > 0 then "   Strengths:\n" ++ String.join (l.map (fun s => "   - " ++ s ++ "\n"))
    else ""
  | none => ""

/-- The per-line gaps block of one suitable item. -/
def gapBlock (gs : Option (List String)) : String :=
  match gs with
  | some l =>
    if l.length > 0 then "   Gaps:\n" ++ String.join (l.map (fun g => "   - " ++ g ++ "\n"))
    else ""
  | none => ""

/-- The one-line joined gaps of a maybe/top item. -/
def gapJoinLine (gs : Option (List String)) : String :=
  match gs with
  | some l => if l.length > 0 then "   Gaps: " ++ String.intercalate ", " l ++ "\n" else ""
  | none => ""

/-- The reasoning line (emitted only for a truthy, i.e. non-empty,
string). -/
def reasoningLine (r : Option String) : String :=
  match r with
  | some t => if t ≠ "" then "   Reasoning: " ++ t ++ "\n" else ""
  | none => ""

/-- One item of the SUITABLE JOBS section of the summary report. -/
def renderSuitableItem (idx : Nat) (item : AnalysisRecord) : String :=
  toString (idx + 1) ++ ". " ++ item.jobFile ++ " - Score: "
    ++ numField item.result.match_score ++ "/10\n"
  ++ "   LinkedIn: " ++ item.linkedinUrl ++ "\n"
  ++ strengthLines item.result.key_strengths
  ++ gapBlock item.result.key_gaps
  ++ reasoningLine item.result.reasoning
  ++ "   Analyzed: " ++ item.analyzedAt ++ "\n\n"

/-- One item of the MAYBE SUITABLE JOBS section of the summary report. -/
def renderMaybeItem (idx : Nat) (item : AnalysisRecord) : String :=
  toString (idx + 1) ++ ". " ++ item.jobFile ++ " - Score: "
    ++ numField item.result.match_score ++ "/10\n"
  ++ "   LinkedIn: " ++ item.linkedinUrl ++ "\n"
  ++ reasoningLine item.result.reasoning
  ++ gapJoinLine item.result.key_gaps
  ++ "\n"

/-- The analyzer's `generateSummaryReport`: header and counts, every
suitable entry, and — when any maybe-suitable entry exists — the first
20 maybe-suitable entries. -/
def generateSummaryReport (now : String) (results : List AnalysisRecord) : String :=
  "JOB SUITABILITY ANALYSIS REPORT\n" ++ eqLine ++ "\n"
  ++ "Generated: " ++ now ++ "\n" ++ eqLine ++ "\n\n"
  ++ "Total Jobs Analyzed: " ++ toString results.length ++ "\n"
  ++ "Suitable: " ++ toString (suitableResults results).length
  ++ " | Maybe: " ++ toString (maybeResults results).length
  ++ " | Not Suitable: "
  ++ toString (results.length - (suitableResults results).length - (maybeResults results).length)
  ++ "\n\n"
  ++ eqLine ++ "\n" ++ "SUITABLE JOBS (Sorted by Score)\n" ++ eqLine ++ "\n\n"
  ++ String.join ((suitableResults results).enum.map (fun ie => renderSuitableItem ie.1 ie.2))
  ++ (if (maybeResults results).length > 0 then
        "\n" ++ eqLine ++ "\n" ++ "MAYBE SUITABLE JOBS (Worth Considering)\n" ++ eqLine ++ "\n\n"
        ++ String.join ((summaryMaybeListed results).enum.map (fun ie => renderMaybeItem ie.1 ie.2))
      else "")

/-- The status marker of a top-matches line. -/
def statusEmoji (st : Option String) : String :=
  if st == some "suitable" then "✓"
  else if st == some "maybe_suitable" then "~"
  else "✗"

/-- One item of the top-matches report. -/
def renderTopItem (idx : Nat) (item : AnalysisRecord) : String :=
  toString (idx + 1) ++ ". [Score: " ++ numField item.result.match_score ++ "/10] "
    ++ statusEmoji item.result.suitability_status ++ " " ++ item.jobFile ++ "\n"
  ++ "   LinkedIn: " ++ item.linkedinUrl ++ "\n"
  ++ (match item.result.reasoning with
      | some t => if t ≠ "" then "   " ++ t ++ "\n" else ""
      | none => "")
  ++ gapJoinLine item.result.key_gaps
  ++ "\n"

/-- The analyzer's `generateTopMatchesReport`: all entries, stably
sorted by descending score. -/
def generateTopMatchesReport (now : String) (results : List AnalysisRecord) : String :=
  let sorted := List.insertionSort sortLE results
  "TOP JOB MATCHES - QUICK REFERENCE\n" ++ eqLine ++ "\n"
  ++ "Generated: " ++ now ++ "\n" ++ eqLine ++ "\n\n"
  ++ String.join (sorted.enum.map (fun ie => renderTopItem ie.1 ie.2))

/-- The observable outcome of one `run` invocation: final in-memory
cache, final results.json contents, the job files submitted to the
classification service, and the two report files (`none` = the file is
not written by this run). -/
structure RunOutputs where
  cache : AnalysisCache
  disk : List AnalysisRecord
  calls : List JobFile
  summary : Option String
  topMatches : Option String
deriving DecidableEq

/-- The analyzer's `run`: load the cache from results.json, compute the
work set, and either (work set empty) regenerate only the summary
report and return, or loop over the work set and then write
results.json, the summary report and the top-matches report. `svc`
gives the service response for each submitted job file; `now` stands
for the timestamps. -/
def run (initialDisk : List AnalysisRecord) (jobFiles : List JobFile)
    (svc : JobFile → ServiceResponse) (now : String) : RunOutputs :=
  let cache0 := loadAnalysisCache initialDisk
  let toAnalyze := jobsToAnalyze cache0 jobFiles
  if toAnalyze.isEmpty then
    { cache := cache0, disk := initialDisk, calls := [],
      summary := some (generateSummaryReport now (cacheValues cache0)),
      topMatches := none }
  else
    let final := toAnalyze.foldl (stepJob svc now)
      { cache := cache0, disk := initialDisk, successCount := 0, errorCount := 0 }
    { cache := final.cache, disk := saveAnalysisCache final.cache, calls := toAnalyze,
      summary := some (generateSummaryReport now (cacheValues final.cache)),
      topMatches := some (generateTopMatchesReport now (cacheValues final.cache)) }

/-- The line pieces the cleanup keeps: split at newlines, trim each
line, drop the empty ones. -/
def cleanPieces (s : Str) : List Str :=
  ((splitNl s).map trimW).filter (fun l => decide (l ≠ []))

/-- The parsed (link-derived) identifier of a card, when its anchor
href matches the job-link regex. -/
def cardParsedId (c : JobCard) : Option Str :=
  c.href.bind extractViewId

/-- Invariant of the analysis cache as this program builds it: every
entry is keyed by its record's `jobFile`. -/
def cacheKeysOk (cache : AnalysisCache) : Prop :=
  ∀ kv ∈ cache, kv.2.jobFile = kv.1

/-- The service response for `f` parses and carries a status, so the
per-job loop iteration for `f` commits (reaches the incremental
save). -/
def stepCommits (svc : JobFile → ServiceResponse) (f : JobFile) : Prop :=
  ∃ p s, svc f = ServiceResponse.structured p ∧ p.suitability_status = some s

/-- The loop state after the first `k` work-set items of a run have
been processed (the moment a crash would freeze). -/
def runLoopState (initialDisk : List AnalysisRecord) (jobFiles : List JobFile)
    (svc : JobFile → ServiceResponse) (now : String) (k : Nat) : LoopState :=
  ((jobsToAnalyze (loadAnalysisCache initialDisk) jobFiles).take k).foldl (stepJob svc now)
    { cache := loadAnalysisCache initialDisk, disk := initialDisk,
      successCount := 0, errorCount := 0 }

lemma head?_dropWhile_ws {s : Str} {c : Char} (h : (s.dropWhile isWSChar).head? = some c) :
    isWSChar c = false := by
  induction s with
  | nil => simp at h
  | cons a t ih =>
    by_cases ha : isWSChar a
    · rw [List.dropWhile_cons_of_pos ha] at h
      exact ih h
    · rw [List.dropWhile_cons_of_neg ha] at h
      simp only [List.head?_cons, Option.some.injEq] at h
      subst h
      exact Bool.not_eq_true _ ▸ (by simpa using ha)

lemma mem_trimW {s : Str} {c : Char} (h : c ∈ trimW s) : c ∈ s := by
  unfold trimW at h
  rw [List.mem_reverse] at h
  have h2 := (@List.dropWhile_suffix Char ((s.dropWhile isWSChar).reverse) isWSChar).subset h
  rw [List.mem_reverse] at h2
  exact (List.dropWhile_suffix isWSChar).subset h2

lemma trimW_nil_of_ws {s : Str} (h : ∀ c ∈ s, isWSChar c) : trimW s = [] := by
  unfold trimW
  rw [List.dropWhile_eq_nil_iff.2 h]
  simp

lemma getLast?_trimW_ws {s : Str} {c : Char} (h : (trimW s).getLast? = some c) :
    isWSChar c = false := by
  unfold trimW at h
  rw [List.getLast?_reverse] at h
  exact head?_dropWhile_ws h

lemma getLast?_dropWhile_or {s : Str} (h : s.dropWhile isWSChar ≠ []) :
    (s.dropWhile isWSChar).getLast? = s.getLast? := by
  obtain ⟨t, ht⟩ := @List.dropWhile_suffix Char s isWSChar
  conv_rhs => rw [← ht]
  rw [List.getLast?_append]
  cases hl : (s.dropWhile isWSChar).getLast? with
  | none => exact absurd (List.getLast?_eq_none_iff.1 hl) h
  | some x => rfl

lemma head?_trimW_ws {s : Str} {c : Char} (h : (trimW s).head? = some c) :
    isWSChar c = false := by
  unfold trimW at h
  rw [List.head?_reverse] at h
  have hne : (s.dropWhile isWSChar).reverse.dropWhile isWSChar ≠ [] := by
    intro hnil
    rw [hnil] at h
    simp at h
  rw [getLast?_dropWhile_or hne, List.getLast?_reverse] at h
  exact head?_dropWhile_ws h

lemma dropWhile_eq_self_of_head {s : Str}
    (h : ∀ c, s.head? = some c → isWSChar c = false) : s.dropWhile isWSChar = s := by
  cases s with
  | nil => rfl
  | cons a t =>
    exact List.dropWhile_cons_of_neg (by simp [h a rfl])

lemma trimW_eq_self {s : Str}
    (h1 : ∀ c, s.head? = some c → isWSChar c = false)
    (h2 : ∀ c, s.getLast? = some c → isWSChar c = false) : trimW s = s := by
  unfold trimW
  rw [dropWhile_eq_self_of_head h1]
  rw [dropWhile_eq_self_of_head (by simpa [List.head?_reverse] using h2)]
  exact List.reverse_reverse s

lemma trimW_idem (s : Str) : trimW (trimW s) = trimW s :=
  trimW_eq_self (fun _ h => head?_trimW_ws h) (fun _ h => getLast?_trimW_ws h)

lemma splitNl_ne_nil (s : Str) : splitNl s ≠ [] := by
  cases s with
  | nil => simp [splitNl]
  | cons c cs =>
    unfold splitNl
    cases h : splitNl cs with
    | nil => simp
    | cons p ps =>
      by_cases hc : c = '\n' <;> simp [hc]

lemma splitNl_cons_nl (cs : Str) : splitNl ('\n' :: cs) = [] :: splitNl cs := by
  conv_lhs => rw [splitNl.eq_def]
  cases h : splitNl cs with
  | nil => exact absurd h (splitNl_ne_nil cs)
  | cons q qs => simp [h]

lemma splitNl_cons_ne {c : Char} {cs q : Str} {qs : List Str} (h : c ≠ '\n')
    (hcs : splitNl cs = q :: qs) : splitNl (c :: cs) = (c :: q) :: qs := by
  conv_lhs => rw [splitNl.eq_def]
  simp [hcs, h]

lemma mem_splitNl_subset {s : Str} {p : Str} (hp : p ∈ splitNl s) {c : Char} (hc : c ∈ p) :
    c ∈ s := by
  induction s generalizing p with
  | nil =>
    simp [splitNl] at hp
    subst hp
    simp at hc
  | cons a cs ih =>
    cases hcs : splitNl cs with
    | nil => exact absurd hcs (splitNl_ne_nil cs)
    | cons q qs =>
      by_cases ha : a = '\n'
      · subst ha
        rw [splitNl_cons_nl] at hp
        rcases List.mem_cons.1 hp with rfl | hp2
        · simp at hc
        · exact List.mem_cons_of_mem _ (ih hp2 hc)
      · rw [splitNl_cons_ne ha hcs] at hp
        rcases List.mem_cons.1 hp with rfl | hp2
        · rcases List.mem_cons.1 hc with rfl | hc2
          · exact List.mem_cons_self c cs
          · exact List.mem_cons_of_mem a (ih (hcs ▸ List.mem_cons_self q qs) hc2)
        · exact List.mem_cons_of_mem a (ih (hcs ▸ List.mem_cons_of_mem q hp2) hc)

lemma mem_splitNl_no_nl {s : Str} {p : Str} (hp : p ∈ splitNl s) : '\n' ∉ p := by
  induction s generalizing p with
  | nil =>
    simp [splitNl] at hp
    subst hp
    simp
  | cons a cs ih =>
    cases hcs : splitNl cs with
    | nil => exact absurd hcs (splitNl_ne_nil cs)
    | cons q qs =>
      by_cases ha : a = '\n'
      · subst ha
        rw [splitNl_cons_nl] at hp
        rcases List.mem_cons.1 hp with rfl | hp2
        · simp
        · exact ih hp2
      · rw [splitNl_cons_ne ha hcs] at hp
        rcases List.mem_cons.1 hp with rfl | hp2
        · intro hmem
          rcases List.mem_cons.1 hmem with h1 | h2
          · exact ha h1.symm
          · exact ih (hcs ▸ List.mem_cons_self q qs) h2
        · exact ih (hcs ▸ List.mem_cons_of_mem q hp2)

lemma splitNl_append_nl {a : Str} (r : Str) (h : '\n' ∉ a) :
    splitNl (a ++ '\n' :: r) = a :: splitNl r := by
  induction a with
  | nil => exact splitNl_cons_nl r
  | cons x a2 ih =>
    have hx : x ≠ '\n' := fun hh => h (hh ▸ List.mem_cons_self x a2)
    have h2 : '\n' ∉ a2 := fun hh => h (List.mem_cons_of_mem x hh)
    show splitNl (x :: (a2 ++ '\n' :: r)) = (x :: a2) :: splitNl r
    cases hr : splitNl r with
    | nil => exact absurd hr (splitNl_ne_nil r)
    | cons q qs =>
      rw [splitNl_cons_ne hx (by rw [ih h2, hr])]

lemma splitNl_of_no_nl {s : Str} (h : '\n' ∉ s) : splitNl s = [s] := by
  induction s with
  | nil => rfl
  | cons c cs ih =>
    have hc : c ≠ '\n' := fun hh => h (hh ▸ List.mem_cons_self c cs)
    have h2 : '\n' ∉ cs := fun hh => h (List.mem_cons_of_mem c hh)
    exact splitNl_cons_ne hc (ih h2)

lemma splitNl_joinNl {ps : List Str} (hne : ps ≠ []) (h : ∀ p ∈ ps, '\n' ∉ p) :
    splitNl (joinNl ps) = ps := by
  induction ps with
  | nil => exact absurd rfl hne
  | cons q rest ih =>
    cases rest with
    | nil =>
      show splitNl (joinNl [q]) = [q]
      exact splitNl_of_no_nl (h q (List.mem_cons_self q []))
    | cons r rs =>
      show splitNl (q ++ '\n' :: joinNl (r :: rs)) = q :: r :: rs
      rw [splitNl_append_nl _ (h q (List.mem_cons_self _ _))]
      rw [ih (by simp) (fun p hp => h p (List.mem_cons_of_mem q hp))]

lemma mem_of_getLastSome {α : Type _} {l : List α} {a : α} (h : l.getLast? = some a) :
    a ∈ l := by
  induction l with
  | nil => simp at h
  | cons x t ih =>
    cases t with
    | nil =>
      simp only [List.getLast?_singleton, Option.some.injEq] at h
      exact h ▸ List.mem_cons_self x []
    | cons y ys =>
      rw [List.getLast?_cons_cons] at h
      exact List.mem_cons_of_mem x (ih h)

lemma joinNl_ne_nil_of_last {ps : List Str} {q : Str} (h : ps.getLast? = some q)
    (hq : q ≠ []) : joinNl ps ≠ [] := by
  induction ps with
  | nil => simp at h
  | cons r rest ih =>
    cases rest with
    | nil =>
      simp only [List.getLast?_singleton, Option.some.injEq] at h
      show r ≠ []
      exact h ▸ hq
    | cons r2 rs =>
      show r ++ '\n' :: joinNl (r2 :: rs) ≠ []
      simp

lemma head?_joinNl {q : Str} (rest : List Str) (hq : q ≠ []) :
    (joinNl (q :: rest)).head? = q.head? := by
  cases rest with
  | nil => rfl
  | cons r rs =>
    show (q ++ '\n' :: joinNl (r :: rs)).head? = q.head?
    rw [List.head?_append]
    cases q with
    | nil => exact absurd rfl hq
    | cons x xs => rfl

lemma getLast?_joinNl {ps : List Str} {q : Str} (h : ps.getLast? = some q) (hq : q ≠ []) :
    (joinNl ps).getLast? = q.getLast? := by
  induction ps with
  | nil => simp at h
  | cons r rest ih =>
    cases rest with
    | nil =>
      simp only [List.getLast?_singleton, Option.some.injEq] at h
      subst h
      rfl
    | cons r2 rs =>
      rw [List.getLast?_cons_cons] at h
      show (r ++ '\n' :: joinNl (r2 :: rs)).getLast? = q.getLast?
      rw [List.getLast?_append]
      have hne : joinNl (r2 :: rs) ≠ [] := joinNl_ne_nil_of_last h hq
      have : ('\n' :: joinNl (r2 :: rs)).getLast? = (joinNl (r2 :: rs)).getLast? := by
        show (['\n'] ++ joinNl (r2 :: rs)).getLast? = (joinNl (r2 :: rs)).getLast?
        rw [List.getLast?_append]
        cases hl : (joinNl (r2 :: rs)).getLast? with
        | none => exact absurd (List.getLast?_eq_none_iff.1 hl) hne
        | some x => rfl
      rw [this, ih h]
      cases hql : q.getLast? with
      | none => exact absurd (List.getLast?_eq_none_iff.1 hql) hq
      | some x => rfl

lemma cleanupText_eq_joinNl (s : Str) : cleanupText s = joinNl (cleanPieces s) := rfl

lemma mem_cleanPieces {s p : Str} (h : p ∈ cleanPieces s) :
    p ≠ [] ∧ trimW p = p ∧ '\n' ∉ p := by
  unfold cleanPieces at h
  obtain ⟨hmem, hdec⟩ := List.mem_filter.1 h
  have hne : p ≠ [] := of_decide_eq_true hdec
  obtain ⟨q, hq, hqe⟩ := List.mem_map.1 hmem
  refine ⟨hne, ?_, ?_⟩
  · rw [← hqe]
    exact trimW_idem q
  · intro hnl
    have : '\n' ∈ q := mem_trimW (hqe ▸ hnl)
    exact mem_splitNl_no_nl hq this

lemma cleanupText_nil_of_ws {s : Str} (h : ∀ c ∈ s, isWSChar c) : cleanupText s = [] := by
  rw [cleanupText_eq_joinNl]
  have : cleanPieces s = [] := by
    unfold cleanPieces
    rw [List.filter_eq_nil_iff]
    intro p hp
    obtain ⟨q, hq, hqe⟩ := List.mem_map.1 hp
    have hws : ∀ c ∈ q, isWSChar c := fun c hc => h c (mem_splitNl_subset hq hc)
    rw [← hqe, trimW_nil_of_ws hws]
    simp
  rw [this]
  rfl

lemma trimW_cleanupText (s : Str) : trimW (cleanupText s) = cleanupText s := by
  rw [cleanupText_eq_joinNl]
  cases hcp : cleanPieces s with
  | nil => rfl
  | cons q rest =>
    have hq := mem_cleanPieces (hcp ▸ List.mem_cons_self q rest)
    obtain ⟨qlast, hql⟩ : ∃ x, (q :: rest).getLast? = some x := by
      cases hl : (q :: rest).getLast? with
      | none => exact absurd (List.getLast?_eq_none_iff.1 hl) (by simp)
      | some x => exact ⟨x, rfl⟩
    have hqlmem : qlast ∈ cleanPieces s := hcp ▸ mem_of_getLastSome hql
    have hqlp := mem_cleanPieces hqlmem
    apply trimW_eq_self
    · intro c hc
      rw [head?_joinNl rest hq.1] at hc
      exact head?_trimW_ws (hq.2.1.symm ▸ hc)
    · intro c hc
      rw [getLast?_joinNl hql hqlp.1] at hc
      exact getLast?_trimW_ws (hqlp.2.1.symm ▸ hc)

lemma splitNl_cleanupText {s : Str} (h : cleanPieces s ≠ []) :
    splitNl (cleanupText s) = cleanPieces s := by
  rw [cleanupText_eq_joinNl]
  exact splitNl_joinNl h (fun p hp => (mem_cleanPieces hp).2.2)

lemma renderTag_ws {tag : String} {inner : Str} (htag : tag ≠ "li")
    (h : ∀ c ∈ inner, isWSChar c) : ∀ c ∈ renderTag tag inner, isWSChar c := by
  have htr : trimW inner = [] := trimW_nil_of_ws h
  unfold renderTag
  rw [htr]
  split_ifs with h1 h2 h3 h4 h5 h6 h7 h8 h9 h10 <;> intro c hc
  · simp at hc
    simp [hc, isWSChar]
  · simp at hc
    simp [hc, isWSChar]
  · exact absurd rfl h4
  · simp at hc
  · simp only [toUpperW, List.map_nil, List.nil_append, List.mem_cons] at hc
    rcases hc with rfl | rfl | hc
    · simp [isWSChar]
    · simp [isWSChar]
    · simp at hc
      simp [hc, isWSChar]
  · simp at hc
    rcases hc with rfl | hc
    · simp [isWSChar]
    · exact h c hc
  · simp at hc
    simp [hc, isWSChar]
  · simp at hc
    simp [hc, isWSChar]
  · exact h c hc
  · exact h c hc
  · exact h c hc

mutual
theorem renderNode_ws : ∀ n : DomNode, noTextNode n = true → noLiNode n = true →
    ∀ c ∈ renderNode n, isWSChar c
  | .text s, ht, _, c, hc => by
    have hws : ∀ x ∈ s, isWSChar x := by
      simpa [noTextNode, List.all_eq_true] using ht
    rw [renderNode, trimW_nil_of_ws hws] at hc
    simp at hc
  | .elem tag cs, ht, hl, c, hc => by
    have h1 : noTextChildren cs = true := by simpa [noTextNode] using ht
    have h2 : tag ≠ "li" ∧ noLiChildren cs = true := by simpa [noLiNode] using hl
    rw [renderNode] at hc
    exact renderTag_ws h2.1 (renderChildren_ws cs h1 h2.2) c hc
theorem renderChildren_ws : ∀ ns : DomChildren, noTextChildren ns = true →
    noLiChildren ns = true → ∀ c ∈ renderChildren ns, isWSChar c
  | .nil, _, _, c, hc => by
    rw [renderChildren] at hc
    simp at hc
  | .cons n ns, ht, hl, c, hc => by
    have h1 : noTextNode n = true ∧ noTextChildren ns = true := by
      simpa [noTextChildren, Bool.and_eq_true] using ht
    have h2 : noLiNode n = true ∧ noLiChildren ns = true := by
      simpa [noLiChildren, Bool.and_eq_true] using hl
    rw [renderChildren] at hc
    rcases List.mem_append.1 hc with hc1 | hc2
    · exact renderNode_ws n h1.1 h2.1 c hc1
    · exact renderChildren_ws ns h1.2 h2.2 c hc2
end

lemma not_sortLE_iff {a b : AnalysisRecord} :
    ¬ sortLE a b ↔ ∃ sa sb : Int, a.result.match_score = some sa ∧
      b.result.match_score = some sb ∧ sa < sb := by
  unfold sortLE scoreCmp
  cases hma : a.result.match_score with
  | none =>
    cases hmb : b.result.match_score with
    | none => simp
    | some sb => simp
  | some sa =>
    cases hmb : b.result.match_score with
    | none => simp
    | some sb =>
      simp only [Option.some.injEq, not_le]
      constructor
      · intro h
        exact ⟨sa, sb, rfl, rfl, by omega⟩
      · rintro ⟨sa2, sb2, h1, h2, h3⟩
        omega

lemma sortLE_total_scored {a b : AnalysisRecord} (ha : a.result.match_score.isSome)
    (hb : b.result.match_score.isSome) : sortLE a b ∨ sortLE b a := by
  obtain ⟨sa, hsa⟩ := Option.isSome_iff_exists.1 ha
  obtain ⟨sb, hsb⟩ := Option.isSome_iff_exists.1 hb
  unfold sortLE scoreCmp
  rw [hsa, hsb]
  simp only []
  omega

lemma sortLE_trans_scored {a b c : AnalysisRecord} (ha : a.result.match_score.isSome)
    (hb : b.result.match_score.isSome) (hc : c.result.match_score.isSome)
    (h1 : sortLE a b) (h2 : sortLE b c) : sortLE a c := by
  obtain ⟨sa, hsa⟩ := Option.isSome_iff_exists.1 ha
  obtain ⟨sb, hsb⟩ := Option.isSome_iff_exists.1 hb
  obtain ⟨sc, hsc⟩ := Option.isSome_iff_exists.1 hc
  unfold sortLE scoreCmp at h1 h2 ⊢
  rw [hsa, hsb] at h1
  rw [hsb, hsc] at h2
  rw [hsa, hsc]
  simp only [] at h1 h2 ⊢
  omega

lemma sortLE_imp_scoredGE {a b : AnalysisRecord} (h : sortLE a b) : scoredGE a b := by
  intro sa sb hsa hsb
  unfold sortLE scoreCmp at h
  rw [hsa, hsb] at h
  simp only [] at h
  omega

lemma sorted_orderedInsert_scored (a : AnalysisRecord) (l : List AnalysisRecord)
    (ha : a.result.match_score.isSome) (hl : ∀ r ∈ l, r.result.match_score.isSome)
    (hs : List.Sorted sortLE l) : List.Sorted sortLE (List.orderedInsert sortLE a l) := by
  induction l with
  | nil => simp [List.orderedInsert]
  | cons b t ih =>
    rw [List.orderedInsert]
    by_cases hab : sortLE a b
    · rw [if_pos hab, List.sorted_cons]
      refine ⟨?_, hs⟩
      intro c hc
      rcases List.mem_cons.1 hc with rfl | hct
      · exact hab
      · exact sortLE_trans_scored ha (hl b (List.mem_cons_self b t))
          (hl c (List.mem_cons_of_mem b hct)) hab ((List.sorted_cons.1 hs).1 c hct)
    · rw [if_neg hab, List.sorted_cons]
      have hst := (List.sorted_cons.1 hs).2
      refine ⟨?_, ih (fun r hr => hl r (List.mem_cons_of_mem b hr)) hst⟩
      intro c hc
      rcases (List.mem_orderedInsert sortLE).1 hc with rfl | hct
      · rcases sortLE_total_scored ha (hl b (List.mem_cons_self b t)) with h | h
        · exact absurd h hab
        · exact h
      · exact (List.sorted_cons.1 hs).1 c hct

lemma sorted_insertionSort_scored (l : List AnalysisRecord)
    (hl : ∀ r ∈ l, r.result.match_score.isSome) :
    List.Sorted sortLE (List.insertionSort sortLE l) := by
  induction l with
  | nil => simp [List.insertionSort]
  | cons a t ih =>
    rw [List.insertionSort]
    exact sorted_orderedInsert_scored a _ (hl a (List.mem_cons_self a t))
      (fun r hr =>
        hl r (List.mem_cons_of_mem a ((List.mem_insertionSort sortLE).1 hr)))
      (ih (fun r hr => hl r (List.mem_cons_of_mem a hr)))

lemma filter_orderedInsert_score (sc : Int) (a : AnalysisRecord) (l : List AnalysisRecord) :
    (List.orderedInsert sortLE a l).filter
        (fun r => decide (r.result.match_score = some sc)) =
      if a.result.match_score = some sc then
        a :: l.filter (fun r => decide (r.result.match_score = some sc))
      else l.filter (fun r => decide (r.result.match_score = some sc)) := by
  induction l with
  | nil =>
    simp only [List.orderedInsert, List.filter]
    by_cases h : a.result.match_score = some sc <;> simp [h]
  | cons b t ih =>
    simp only [List.orderedInsert]
    by_cases hab : sortLE a b
    · rw [if_pos hab]
      by_cases ha : a.result.match_score = some sc <;> simp [List.filter, ha]
    · rw [if_neg hab]
      obtain ⟨sa, sb, hma, hmb, hlt⟩ := not_sortLE_iff.1 hab
      by_cases ha : a.result.match_score = some sc
      · have hsa : sa = sc := by
          rw [hma] at ha
          exact Option.some.inj ha
        have hbne : ¬ b.result.match_score = some sc := by
          rw [hmb]
          intro he
          have : sb = sc := Option.some.inj he
          omega
        simp [List.filter, hbne, ih, ha]
      · by_cases hbe : b.result.match_score = some sc <;>
          simp [List.filter, hbe, ih, ha]

lemma filter_insertionSort_score (sc : Int) (l : List AnalysisRecord) :
    (List.insertionSort sortLE l).filter
        (fun r => decide (r.result.match_score = some sc)) =
      l.filter (fun r => decide (r.result.match_score = some sc)) := by
  induction l with
  | nil => rfl
  | cons a t ih =>
    simp only [List.insertionSort]
    rw [filter_orderedInsert_score]
    by_cases ha : a.result.match_score = some sc <;> simp [List.filter, ha, ih]

lemma cacheMem_iff {c : AnalysisCache} {x : String} :
    cacheMem c x = true ↔ x ∈ c.map Prod.fst := by
  simp only [cacheMem, List.any_eq_true, List.mem_map, decide_eq_true_eq]

lemma mem_keys_cacheSet {c : AnalysisCache} {k x : String} {v : AnalysisRecord} :
    x ∈ (cacheSet c k v).map Prod.fst ↔ x = k ∨ x ∈ c.map Prod.fst := by
  unfold cacheSet
  by_cases hm : cacheMem c k
  · rw [if_pos hm]
    have hk : k ∈ c.map Prod.fst := cacheMem_iff.1 hm
    rw [List.map_map]
    have : ∀ kv ∈ c, (Prod.fst ∘ fun kv => if kv.1 = k then (k, v) else kv) kv = kv.1 := by
      intro kv _
      by_cases he : kv.1 = k <;> simp [he]
    rw [List.map_congr_left this]
    constructor
    · intro h
      exact Or.inr h
    · rintro (rfl | h)
      · exact hk
      · exact h
  · rw [if_neg hm]
    rw [List.map_append]
    simp [or_comm]

lemma cacheKeysOk_cacheSet {c : AnalysisCache} {k : String} {v : AnalysisRecord}
    (h : cacheKeysOk c) (hv : v.jobFile = k) : cacheKeysOk (cacheSet c k v) := by
  unfold cacheSet
  by_cases hm : cacheMem c k
  · rw [if_pos hm]
    intro kv hkv
    obtain ⟨kv0, hkv0, hkve⟩ := List.mem_map.1 hkv
    by_cases he : kv0.1 = k
    · simp only [he, if_pos rfl] at hkve
      rw [← hkve]
      exact hv
    · simp only [if_neg he] at hkve
      rw [← hkve]
      exact h kv0 hkv0
  · rw [if_neg hm]
    intro kv hkv
    rcases List.mem_append.1 hkv with h1 | h2
    · exact h kv h1
    · simp at h2
      rw [h2]
      exact hv

lemma cacheKeysOk_foldl_load {rs : List AnalysisRecord} :
    ∀ {c : AnalysisCache}, cacheKeysOk c → cacheKeysOk (rs.foldl (fun c r => cacheSet c r.jobFile r) c) := by
  induction rs with
  | nil => exact fun h => h
  | cons r rs ih =>
    intro c h
    exact ih (cacheKeysOk_cacheSet h rfl)

lemma cacheKeysOk_load (rs : List AnalysisRecord) : cacheKeysOk (loadAnalysisCache rs) :=
  cacheKeysOk_foldl_load (by intro kv hkv; simp at hkv)

lemma values_map_jobFile {c : AnalysisCache} (h : cacheKeysOk c) :
    (cacheValues c).map (fun r => r.jobFile) = c.map Prod.fst := by
  unfold cacheValues
  rw [List.map_map]
  exact List.map_congr_left (fun kv hkv => h kv hkv)

lemma mem_keys_foldl_load {rs : List AnalysisRecord} :
    ∀ {c : AnalysisCache} {x : String},
      (x ∈ (rs.foldl (fun c r => cacheSet c r.jobFile r) c).map Prod.fst ↔
        x ∈ rs.map (fun r => r.jobFile) ∨ x ∈ c.map Prod.fst) := by
  induction rs with
  | nil => simp
  | cons r rs ih =>
    intro c x
    rw [List.foldl_cons, ih, List.map_cons]
    rw [mem_keys_cacheSet]
    constructor
    · rintro (h1 | (rfl | h2))
      · exact Or.inl (List.mem_cons_of_mem _ h1)
      · exact Or.inl (List.mem_cons_self _ _)
      · exact Or.inr h2
    · rintro (h1 | h2)
      · rcases List.mem_cons.1 h1 with rfl | h3
        · exact Or.inr (Or.inl rfl)
        · exact Or.inl h3
      · exact Or.inr (Or.inr h2)

lemma cacheMem_load_iff {rs : List AnalysisRecord} {x : String} :
    cacheMem (loadAnalysisCache rs) x = true ↔ x ∈ rs.map (fun r => r.jobFile) := by
  rw [cacheMem_iff]
  unfold loadAnalysisCache
  rw [mem_keys_foldl_load]
  simp

lemma cacheMem_load_save {c : AnalysisCache} (h : cacheKeysOk c) (x : String) :
    cacheMem (loadAnalysisCache (saveAnalysisCache c)) x = cacheMem c x := by
  rw [Bool.eq_iff_iff, cacheMem_load_iff, cacheMem_iff]
  have hperm : (saveAnalysisCache c).Perm (cacheValues c) :=
    List.perm_insertionSort sortLE (cacheValues c)
  rw [(hperm.map (fun r => r.jobFile)).mem_iff]
  rw [values_map_jobFile h]

lemma stepJob_commit {svc : JobFile → ServiceResponse} {now : String} {st : LoopState}
    {f : JobFile} (h : stepCommits svc f) :
    ∃ p, svc f = ServiceResponse.structured p ∧
      (stepJob svc now st f).cache = cacheSet st.cache f.name (mkAnalysisRecord f.name now p) ∧
      (stepJob svc now st f).disk =
        saveAnalysisCache (cacheSet st.cache f.name (mkAnalysisRecord f.name now p)) := by
  obtain ⟨p, s, hs, hst⟩ := h
  refine ⟨p, hs, ?_, ?_⟩ <;> simp [stepJob, hs, analyzeJobSuitability, hst]

lemma cacheKeysOk_stepJob {svc : JobFile → ServiceResponse} {now : String} {st : LoopState}
    {f : JobFile} (h : cacheKeysOk st.cache) : cacheKeysOk ((stepJob svc now st f).cache) := by
  unfold stepJob
  cases hs : svc f with
  | failure m => exact h
  | structured p =>
    simp only [analyzeJobSuitability]
    cases hst : p.suitability_status with
    | none => exact cacheKeysOk_cacheSet h rfl
    | some s => exact cacheKeysOk_cacheSet h rfl

lemma cacheKeysOk_foldl_step {svc : JobFile → ServiceResponse} {now : String} :
    ∀ (fs : List JobFile) (st : LoopState), cacheKeysOk st.cache →
      cacheKeysOk ((fs.foldl (stepJob svc now) st).cache) := by
  intro fs
  induction fs with
  | nil => exact fun st h => h
  | cons f fs ih => exact fun st h => ih _ (cacheKeysOk_stepJob h)

lemma cacheMem_foldl_commit {svc : JobFile → ServiceResponse} {now : String} :
    ∀ (fs : List JobFile) (st : LoopState) (x : String), (∀ f ∈ fs, stepCommits svc f) →
      (cacheMem ((fs.foldl (stepJob svc now) st).cache) x = true ↔
        x ∈ fs.map (fun f => f.name) ∨ cacheMem st.cache x = true) := by
  intro fs
  induction fs with
  | nil => simp
  | cons f fs ih =>
    intro st x hall
    rw [List.foldl_cons]
    rw [ih (stepJob svc now st f) x (fun g hg => hall g (List.mem_cons_of_mem f hg))]
    obtain ⟨p, _, hcache, _⟩ := stepJob_commit (hall f (List.mem_cons_self f fs))
    rw [hcache, cacheMem_iff, mem_keys_cacheSet, ← cacheMem_iff, List.map_cons]
    constructor
    · rintro (h1 | (rfl | h2))
      · exact Or.inl (List.mem_cons_of_mem _ h1)
      · exact Or.inl (List.mem_cons_self _ _)
      · exact Or.inr h2
    · rintro (h1 | h2)
      · rcases List.mem_cons.1 h1 with rfl | h3
        · exact Or.inr (Or.inl rfl)
        · exact Or.inl h3
      · exact Or.inr (Or.inr h2)

lemma disk_foldl_commit {svc : JobFile → ServiceResponse} {now : String} :
    ∀ (fs : List JobFile) (st : LoopState), fs ≠ [] → (∀ f ∈ fs, stepCommits svc f) →
      (fs.foldl (stepJob svc now) st).disk =
        saveAnalysisCache ((fs.foldl (stepJob svc now) st).cache) := by
  intro fs
  induction fs with
  | nil => exact fun st h _ => absurd rfl h
  | cons f fs ih =>
    intro st _ hall
    rw [List.foldl_cons]
    cases hfs : fs with
    | nil =>
      obtain ⟨p, _, hcache, hdisk⟩ := stepJob_commit (hall f (List.mem_cons_self f fs))
      subst hfs
      simp only [List.foldl_nil]
      rw [hdisk, hcache]
    | cons g gs =>
      subst hfs
      exact ih _ (by simp) (fun g hg => hall g (List.mem_cons_of_mem f hg))

lemma filter_not_mem_take {α β : Type _} [DecidableEq β] (name : α → β) :
    ∀ (l : List α) (k : Nat), (l.map name).Nodup →
      l.filter (fun x => decide (name x ∉ (l.take k).map name)) = l.drop k := by
  intro l
  induction l with
  | nil => simp
  | cons a t ih =>
    intro k hnd
    cases k with
    | zero => simp
    | succ k2 =>
      rw [List.take_succ_cons, List.map_cons, List.drop_succ_cons]
      rw [List.map_cons] at hnd
      have hna : name a ∉ t.map name := (List.nodup_cons.1 hnd).1
      have hnt : (t.map name).Nodup := (List.nodup_cons.1 hnd).2
      rw [List.filter_cons]
      have hfa : decide (name a ∉ name a :: (t.take k2).map name) = false := by
        simp
      rw [hfa]
      simp only [Bool.false_eq_true, if_neg (by simp : ¬False)]
      have hcongr : ∀ x ∈ t,
          decide (name x ∉ name a :: (t.take k2).map name) =
            decide (name x ∉ (t.take k2).map name) := by
        intro x hx
        have hxa : name x ≠ name a := by
          intro he
          exact hna (he ▸ List.mem_map_of_mem name hx)
        by_cases hmem : name x ∈ (t.take k2).map name <;> simp [hmem, hxa]
      rw [List.filter_congr hcongr]
      exact ih k2 hnt

/-- C8: for every record persisted by the Harvester, the Record Store
file is named `<id>.txt`, and its content is exactly a header block of
key: value lines for organization and location, followed by a blank
line, followed by the normalized body text: splitting the content at
newlines yields the Company line, the Location line, one empty line
(the blank separator), and then exactly the lines of the normalized
body, each of which is non-empty and trimmed. -/
theorem record_store_file_format (jobId company location : Str) (panel : DomChildren)
    (hc : '\n' ∉ company) (hl : '\n' ∉ location) :
    recordFileName jobId = jobId ++ '.' :: 't' :: 'x' :: 't' :: [] ∧
    splitNl (recordFileContent company location panel) =
      ("Company: ".data ++ company) :: ("Location: ".data ++ location) :: [] ::
        splitNl (trimW (formattedDetailsText panel)) ∧
    (trimW (formattedDetailsText panel) = [] ∨
      ∀ line ∈ splitNl (trimW (formattedDetailsText panel)), line ≠ [] ∧ trimW line = line) := by
  have hC : '\n' ∉ ("Company: ".data ++ company) := by
    intro h
    rcases List.mem_append.1 h with h1 | h2
    · exact absurd h1 (by decide)
    · exact hc h2
  have hL : '\n' ∉ ("Location: ".data ++ location) := by
    intro h
    rcases List.mem_append.1 h with h1 | h2
    · exact absurd h1 (by decide)
    · exact hl h2
  have hbody : trimW (formattedDetailsText panel) = cleanupText (renderChildren panel) :=
    trimW_cleanupText (renderChildren panel)
  refine ⟨rfl, ?_, ?_⟩
  · unfold recordFileContent
    rw [splitNl_append_nl _ hC]
    congr 1
    rw [splitNl_append_nl _ hL]
    congr 1
    exact splitNl_cons_nl _
  · rw [hbody]
    cases hcp : cleanPieces (renderChildren panel) with
    | nil =>
      left
      rw [cleanupText_eq_joinNl, hcp]
      rfl
    | cons q rest =>
      right
      intro line hline
      rw [splitNl_cleanupText (by rw [hcp]; simp)] at hline
      have hm := mem_cleanPieces hline
      exact ⟨hm.1, hm.2.1⟩

/-- Witness for C8 at a concrete record: id "123", company "Acme",
location "NY", a body of one text node. -/
theorem record_store_file_format_witness :
    recordFileName "123".data = "123".data ++ '.' :: 't' :: 'x' :: 't' :: [] ∧
    splitNl (recordFileContent "Acme".data "NY".data
        (DomChildren.cons (DomNode.text "hello world".data) DomChildren.nil)) =
      ("Company: ".data ++ "Acme".data) :: ("Location: ".data ++ "NY".data) :: [] ::
        splitNl (trimW (formattedDetailsText
          (DomChildren.cons (DomNode.text "hello world".data) DomChildren.nil))) ∧
    (trimW (formattedDetailsText
        (DomChildren.cons (DomNode.text "hello world".data) DomChildren.nil)) = [] ∨
      ∀ line ∈ splitNl (trimW (formattedDetailsText
          (DomChildren.cons (DomNode.text "hello world".data) DomChildren.nil))),
        line ≠ [] ∧ trimW line = line) :=
  record_store_file_format "123".data "Acme".data "NY".data
    (DomChildren.cons (DomNode.text "hello world".data) DomChildren.nil)
    (by decide) (by decide)

/-- C9 counterexample: the empty paragraph element is a "no text" node,
yet the full conversion (render + line cleanup) collapses to EMPTY
output on it, contradicting the claim that the conversion collapses to
non-empty output for any "no text" node. -/
theorem html_conversion_no_text_counterexample :
    noTextNode (DomNode.elem "p" DomChildren.nil) = true ∧
    cleanupText (renderNode (DomNode.elem "p" DomChildren.nil)) = [] :=
  ⟨rfl, by decide⟩

/-- C9 amended: the element-tree-to-text conversion is a function of
the input tree (deterministic by construction) in which block elements
contribute text that starts on a new line (or contribute nothing, as an
empty div does), headings are rendered upper-cased between a blank line
and a line break, list items are prefixed with the bullet marker,
inline emphasis/link elements contribute their text inline without
introducing a line break, and the conversion collapses to EMPTY (not
non-empty) output for any "no text" node containing no list item
(a no-text list item still emits its bullet marker). -/
theorem html_conversion_amended :
    (∀ (tag : String) (cs : DomChildren),
        (tag = "p" ∨ tag = "div" ∨ tag = "h1" ∨ tag = "h2" ∨ tag = "h3" ∨ tag = "h4" ∨
          tag = "h5" ∨ tag = "h6" ∨ tag = "li" ∨ tag = "ul" ∨ tag = "ol") →
        renderNode (DomNode.elem tag cs) = [] ∨
          (renderNode (DomNode.elem tag cs)).head? = some '\n') ∧
    (∀ (tag : String) (cs : DomChildren),
        (tag = "h1" ∨ tag = "h2" ∨ tag = "h3" ∨ tag = "h4" ∨ tag = "h5" ∨ tag = "h6") →
        renderNode (DomNode.elem tag cs) =
          '\n' :: '\n' :: (toUpperW (trimW (renderChildren cs)) ++ ['\n'])) ∧
    (∀ cs : DomChildren,
        renderNode (DomNode.elem "li" cs) = '\n' :: (bulletMark ++ trimW (renderChildren cs))) ∧
    (∀ (tag : String) (cs : DomChildren),
        (tag = "strong" ∨ tag = "b" ∨ tag = "em" ∨ tag = "i" ∨ tag = "span" ∨ tag = "a") →
        '\n' ∉ renderChildren cs → '\n' ∉ renderNode (DomNode.elem tag cs)) ∧
    (∀ n : DomNode, noTextNode n = true → noLiNode n = true →
        cleanupText (renderNode n) = []) := by
  refine ⟨?_, ?_, ?_, ?_, ?_⟩
  · intro tag cs htag
    rcases htag with rfl | rfl | rfl | rfl | rfl | rfl | rfl | rfl | rfl | rfl | rfl
    · exact Or.inr rfl
    · have hdiv : renderNode (DomNode.elem "div" cs) =
          if trimW (renderChildren cs) ≠ [] then '\n' :: trimW (renderChildren cs) else [] := rfl
      by_cases h : trimW (renderChildren cs) ≠ []
      · right
        rw [hdiv, if_pos h]
        rfl
      · left
        rw [hdiv, if_neg h]
    · exact Or.inr rfl
    · exact Or.inr rfl
    · exact Or.inr rfl
    · exact Or.inr rfl
    · exact Or.inr rfl
    · exact Or.inr rfl
    · exact Or.inr rfl
    · exact Or.inr rfl
    · exact Or.inr rfl
  · intro tag cs htag
    rcases htag with rfl | rfl | rfl | rfl | rfl | rfl <;> rfl
  · intro cs
    rfl
  · intro tag cs htag hnl hmem
    rcases htag with rfl | rfl | rfl | rfl | rfl | rfl
    · rcases List.mem_append.1 hmem with h1 | h2
      · exact hnl (mem_trimW h1)
      · simp at h2
    · rcases List.mem_append.1 hmem with h1 | h2
      · exact hnl (mem_trimW h1)
      · simp at h2
    · rcases List.mem_append.1 hmem with h1 | h2
      · exact hnl (mem_trimW h1)
      · simp at h2
    · rcases List.mem_append.1 hmem with h1 | h2
      · exact hnl (mem_trimW h1)
      · simp at h2
    · exact hnl hmem
    · exact hnl hmem
  · exact fun n ht hl => cleanupText_nil_of_ws (renderNode_ws n ht hl)

/-- Witness for C9 amended at concrete nodes: an empty paragraph, an
empty h2, an empty list item, a bold element with text, and an empty
div. -/
theorem html_conversion_amended_witness :
    (renderNode (DomNode.elem "p" DomChildren.nil) = [] ∨
      (renderNode (DomNode.elem "p" DomChildren.nil)).head? = some '\n') ∧
    renderNode (DomNode.elem "h2" DomChildren.nil) =
      '\n' :: '\n' :: (toUpperW (trimW (renderChildren DomChildren.nil)) ++ ['\n']) ∧
    renderNode (DomNode.elem "li" DomChildren.nil) =
      '\n' :: (bulletMark ++ trimW (renderChildren DomChildren.nil)) ∧
    '\n' ∉ renderNode (DomNode.elem "b"
      (DomChildren.cons (DomNode.text "x".data) DomChildren.nil)) ∧
    cleanupText (renderNode (DomNode.elem "div" DomChildren.nil)) = [] :=
  ⟨html_conversion_amended.1 "p" DomChildren.nil (Or.inl rfl),
   html_conversion_amended.2.1 "h2" DomChildren.nil (Or.inr (Or.inl rfl)),
   html_conversion_amended.2.2.1 DomChildren.nil,
   html_conversion_amended.2.2.2.1 "b"
     (DomChildren.cons (DomNode.text "x".data) DomChildren.nil)
     (Or.inr (Or.inl rfl)) (by decide),
   html_conversion_amended.2.2.2.2 (DomNode.elem "div" DomChildren.nil) rfl rfl⟩

lemma cardJobId_parsed {c : JobCard} {id : Str} (h : cardParsedId c = some id) (g : Str) :
    cardJobId c g = id := by
  unfold cardParsedId at h
  unfold cardJobId
  cases hh : c.href with
  | none =>
    rw [hh] at h
    rw [Option.none_bind] at h
    exact Option.noConfusion h

  | some u =>
    rw [hh] at h
    simp only [Option.some_bind] at h
    show (extractViewId u).getD g = id
    rw [h]
    rfl

lemma writes_contains {existing : List Str} :
    ∀ (pairs : List (JobCard × Str)) (c : JobCard) (g id : Str) (P : DomChildren),
      (c, g) ∈ pairs → cardParsedId c = some id → id ∉ existing → c.panel = some P →
      id ∈ (harvestWrites existing pairs).map Prod.fst := by
  intro pairs
  induction pairs with
  | nil => simp
  | cons pr rest ih =>
    intro c g id P hmem hpar hnex hpan
    obtain ⟨c0, g0⟩ := pr
    rcases List.mem_cons.1 hmem with heq | hmem2
    · obtain ⟨hc0, hg0⟩ := Prod.mk.injEq .. ▸ heq
      subst hc0
      subst hg0
      show id ∈ (harvestWrites existing ((c, g) :: rest)).map Prod.fst
      unfold harvestWrites
      rw [cardJobId_parsed hpar g, if_neg hnex, hpan]
      simp
    · show id ∈ (harvestWrites existing ((c0, g0) :: rest)).map Prod.fst
      unfold harvestWrites
      by_cases h0 : cardJobId c0 g0 ∈ existing
      · rw [if_pos h0]
        exact ih c g id P hmem2 hpar hnex hpan
      · rw [if_neg h0]
        cases hp0 : c0.panel with
        | none => exact ih c g id P hmem2 hpar hnex hpan
        | some Q =>
          simp only [List.map_cons]
          exact List.mem_cons_of_mem _ (ih c g id P hmem2 hpar hnex hpan)

lemma harvestWrites_nil {E : List Str} :
    ∀ pairs : List (JobCard × Str),
      (∀ c g, (c, g) ∈ pairs → cardJobId c g ∈ E ∨ c.panel = none) →
      harvestWrites E pairs = [] := by
  intro pairs
  induction pairs with
  | nil => exact fun _ => rfl
  | cons pr rest ih =>
    intro h
    obtain ⟨c0, g0⟩ := pr
    have hc := h c0 g0 (List.mem_cons_self _ _)
    have hrest : harvestWrites E rest = [] :=
      ih (fun c g hm => h c g (List.mem_cons_of_mem _ hm))
    unfold harvestWrites
    rcases hc with hin | hnone
    · rw [if_pos hin]
      exact hrest
    · by_cases hin : cardJobId c0 g0 ∈ E
      · rw [if_pos hin]
        exact hrest
      · rw [if_neg hin, hnone]
        exact hrest

/-- C5 counterexample: a listing with one card that has no parseable
canonical link. The first run writes it under a synthesized identifier;
the second run over the unchanged listing synthesizes a different
identifier, finds it absent from the Record Store, and writes a new
record — the second run does not yield zero new records. -/
theorem harvest_idempotence_counterexample :
    (harvestWrites []
        [({ href := none, panel := some DomChildren.nil, company := none, location := none },
          "job-100-aaa".data)]).map Prod.fst = ["job-100-aaa".data] ∧
    (harvestWrites ["job-100-aaa".data]
        [({ href := none, panel := some DomChildren.nil, company := none, location := none },
          "job-200-bbb".data)]).map Prod.fst = ["job-200-bbb".data] ∧
    "job-200-bbb".data ∉ ["job-100-aaa".data] :=
  ⟨rfl, rfl, by decide⟩

/-- C5 amended: running the Harvester twice against an unchanged
listing yields zero new records on the second run, provided every
card's identifier is parsed from its canonical link (cards whose
identifier must be synthesized from time+randomness are never
deduplicable across runs — the documented limitation): whatever
synthesized fallbacks `f1`, `f2` the two runs would use, every
identifier extracted on the second run is already present in the
Record Store or its card has no details panel, so no record is
written. -/
theorem harvest_idempotence_amended (existing : List Str) (cards : List JobCard)
    (f1 f2 : List Str) (hlen : cards.length ≤ f1.length)
    (hparse : ∀ c ∈ cards, (cardParsedId c).isSome) :
    harvestWrites (existing ++ (harvestWrites existing (cards.zip f1)).map Prod.fst)
      (cards.zip f2) = [] := by
  apply harvestWrites_nil
  intro c g hmem
  have hc : c ∈ cards := (List.of_mem_zip hmem).1
  obtain ⟨id, hid⟩ := Option.isSome_iff_exists.1 (hparse c hc)
  rw [cardJobId_parsed hid g]
  by_cases hex : id ∈ existing
  · exact Or.inl (List.mem_append.2 (Or.inl hex))
  · cases hp : c.panel with
    | none => exact Or.inr rfl
    | some P =>
      left
      apply List.mem_append.2
      right
      have hcz : c ∈ (cards.zip f1).map Prod.fst := by
        rw [List.map_fst_zip cards f1 hlen]
        exact hc
      obtain ⟨pr, hpr, hpre⟩ := List.mem_map.1 hcz
      have : pr = (c, pr.snd) := by
        rw [← hpre]
      exact writes_contains (cards.zip f1) c pr.snd id P (this ▸ hpr) hid hex hp

/-- Witness for C5 amended: one card with a parseable link
`/jobs/view/42`; the second run writes nothing. -/
theorem harvest_idempotence_amended_witness :
    ([({ href := some "/jobs/view/42".data, panel := some DomChildren.nil,
         company := none, location := none } : JobCard)].length ≤ ["x".data].length) ∧
    harvestWrites
      ([] ++ (harvestWrites []
        ([({ href := some "/jobs/view/42".data, panel := some DomChildren.nil,
             company := none, location := none } : JobCard)].zip ["x".data])).map Prod.fst)
      ([({ href := some "/jobs/view/42".data, panel := some DomChildren.nil,
           company := none, location := none } : JobCard)].zip ["y".data]) = [] :=
  ⟨by decide,
   harvest_idempotence_amended []
     [{ href := some "/jobs/view/42".data, panel := some DomChildren.nil,
        company := none, location := none }]
     ["x".data] ["y".data] (by decide) (by decide)⟩

/-- C1 counterexample: a parseable classification payload with
`score = 11` (outside [0, 10]) is not rejected — `analyzeJobSuitability`
returns it unchanged, and the per-job loop creates a Ledger entry for
the record, persisting the out-of-range score verbatim. -/
theorem validation_rejection_counterexample :
    analyzeJobSuitability (ServiceResponse.structured
        ⟨some "suitable", some 11, none, none, none⟩) =
      Except.ok ⟨some "suitable", some 11, none, none, none⟩ ∧
    (stepJob (fun _ => ServiceResponse.structured ⟨some "suitable", some 11, none, none, none⟩)
        "T" ⟨[], [], 0, 0⟩ ⟨"jp", "a.txt"⟩).cache =
      [("a.txt", mkAnalysisRecord "a.txt" "T" ⟨some "suitable", some 11, none, none, none⟩)] ∧
    (stepJob (fun _ => ServiceResponse.structured ⟨some "suitable", some 11, none, none, none⟩)
        "T" ⟨[], [], 0, 0⟩ ⟨"jp", "a.txt"⟩).disk =
      [mkAnalysisRecord "a.txt" "T" ⟨some "suitable", some 11, none, none, none⟩] ∧
    (mkAnalysisRecord "a.txt" "T"
        ⟨some "suitable", some 11, none, none, none⟩).result.match_score = some 11 :=
  ⟨rfl, rfl, rfl, rfl⟩

/-- C1 amended: the Classifier performs no local validation. A thrown
transport/parse failure is a typed per-item error that leaves the state
unchanged; but any structurally parsed payload — including one missing
`status` or `score`, or with a score outside [0, 10] — is returned
unchanged (no clamping), and whenever the status field is present the
loop creates/overwrites the Ledger entry with the payload verbatim and
persists it immediately. -/
theorem classifier_no_validation_amended :
    (∀ m : String, analyzeJobSuitability (ServiceResponse.failure m) = Except.error m) ∧
    (∀ p : JobSuitabilityResult,
      analyzeJobSuitability (ServiceResponse.structured p) = Except.ok p) ∧
    (∀ (svc : JobFile → ServiceResponse) (now : String) (st : LoopState) (f : JobFile)
        (m : String), svc f = ServiceResponse.failure m →
        stepJob svc now st f = { st with errorCount := st.errorCount + 1 }) ∧
    (∀ (svc : JobFile → ServiceResponse) (now : String) (st : LoopState) (f : JobFile)
        (p : JobSuitabilityResult) (s : String),
        svc f = ServiceResponse.structured p → p.suitability_status = some s →
        stepJob svc now st f =
          { cache := cacheSet st.cache f.name (mkAnalysisRecord f.name now p),
            disk := saveAnalysisCache (cacheSet st.cache f.name (mkAnalysisRecord f.name now p)),
            successCount := st.successCount + 1, errorCount := st.errorCount }) := by
  refine ⟨fun m => rfl, fun p => rfl, ?_, ?_⟩
  · intro svc now st f m h
    simp [stepJob, h, analyzeJobSuitability]
  · intro svc now st f p s h hs
    simp [stepJob, h, analyzeJobSuitability, hs]

/-- Witness for C1 amended at a concrete failing call and a concrete
score-11 payload. -/
theorem classifier_no_validation_amended_witness :
    analyzeJobSuitability (ServiceResponse.failure "boom") = Except.error "boom" ∧
    analyzeJobSuitability (ServiceResponse.structured ⟨none, some (-1), none, none, none⟩) =
      Except.ok ⟨none, some (-1), none, none, none⟩ ∧
    stepJob (fun _ => ServiceResponse.failure "boom") "T" ⟨[], [], 0, 0⟩ ⟨"jp", "b.txt"⟩ =
      { cache := [], disk := [], successCount := 0, errorCount := 1 } ∧
    stepJob (fun _ => ServiceResponse.structured ⟨some "not_suitable", some 11, none, none, none⟩)
        "T" ⟨[], [], 0, 0⟩ ⟨"jp", "b.txt"⟩ =
      { cache := cacheSet [] "b.txt"
          (mkAnalysisRecord "b.txt" "T" ⟨some "not_suitable", some 11, none, none, none⟩),
        disk := saveAnalysisCache (cacheSet [] "b.txt"
          (mkAnalysisRecord "b.txt" "T" ⟨some "not_suitable", some 11, none, none, none⟩)),
        successCount := 1, errorCount := 0 } :=
  ⟨classifier_no_validation_amended.1 "boom",
   classifier_no_validation_amended.2.1 ⟨none, some (-1), none, none, none⟩,
   classifier_no_validation_amended.2.2.1 _ "T" ⟨[], [], 0, 0⟩ ⟨"jp", "b.txt"⟩ "boom" rfl,
   classifier_no_validation_amended.2.2.2 _ "T" ⟨[], [], 0, 0⟩ ⟨"jp", "b.txt"⟩
     ⟨some "not_suitable", some 11, none, none, none⟩ "not_suitable" rfl rfl⟩

lemma cacheGet_cacheSet (c : AnalysisCache) (k : String) (v : AnalysisRecord) :
    cacheGet (cacheSet c k v) k = some v := by
  induction c with
  | nil => simp [cacheGet, cacheSet, cacheMem]
  | cons kv0 rest ih =>
    by_cases h0 : kv0.1 = k
    · have hm : cacheMem (kv0 :: rest) k = true :=
        List.any_eq_true.2 ⟨kv0, List.mem_cons_self _ _, by simp [h0]⟩
      unfold cacheGet cacheSet
      rw [if_pos hm, List.map_cons, if_pos h0]
      simp [List.find?_cons]
    · have hm0 : cacheMem (kv0 :: rest) k = cacheMem rest k := by
        unfold cacheMem
        simp [List.any_cons, h0]
      unfold cacheGet cacheSet
      by_cases hm : cacheMem rest k
      · rw [if_pos (by rw [hm0]; exact hm)]
        rw [List.map_cons, if_neg h0]
        rw [List.find?_cons_of_neg _ (by simp [h0])]
        have ihu := ih
        unfold cacheGet cacheSet at ihu
        rw [if_pos hm] at ihu
        exact ihu
      · rw [if_neg (by rw [hm0]; exact hm)]
        rw [List.cons_append]
        rw [List.find?_cons_of_neg _ (by simp [h0])]
        have ihu := ih
        unfold cacheGet cacheSet at ihu
        rw [if_neg hm] at ihu
        exact ihu

lemma mem_values_cacheSet (c : AnalysisCache) (k : String) (v : AnalysisRecord) :
    v ∈ cacheValues (cacheSet c k v) := by
  unfold cacheValues cacheSet
  by_cases hm : cacheMem c k
  · rw [if_pos hm]
    unfold cacheMem at hm
    rw [List.any_eq_true] at hm
    obtain ⟨kv0, hkv0, hkvk⟩ := hm
    rw [decide_eq_true_eq] at hkvk
    rw [List.map_map]
    apply List.mem_map.2
    refine ⟨kv0, hkv0, ?_⟩
    simp [hkvk]
  · rw [if_neg hm]
    rw [List.map_append]
    simp

/-- C7 counterexample: a parseable payload whose `gaps` list has 6
entries is accepted — the result is returned unchanged and an entry
carrying all 6 gaps is created in the Ledger. -/
theorem gaps_bound_counterexample :
    analyzeJobSuitability (ServiceResponse.structured
        ⟨some "suitable", some 5, none, some ["g1", "g2", "g3", "g4", "g5", "g6"], none⟩) =
      Except.ok ⟨some "suitable", some 5, none, some ["g1", "g2", "g3", "g4", "g5", "g6"], none⟩ ∧
    cacheGet (stepJob
        (fun _ => ServiceResponse.structured
          ⟨some "suitable", some 5, none, some ["g1", "g2", "g3", "g4", "g5", "g6"], none⟩)
        "T" ⟨[], [], 0, 0⟩ ⟨"jp", "a.txt"⟩).cache "a.txt" =
      some (mkAnalysisRecord "a.txt" "T"
        ⟨some "suitable", some 5, none, some ["g1", "g2", "g3", "g4", "g5", "g6"], none⟩) ∧
    (stepJob
        (fun _ => ServiceResponse.structured
          ⟨some "suitable", some 5, none, some ["g1", "g2", "g3", "g4", "g5", "g6"], none⟩)
        "T" ⟨[], [], 0, 0⟩ ⟨"jp", "a.txt"⟩).disk =
      [mkAnalysisRecord "a.txt" "T"
        ⟨some "suitable", some 5, none, some ["g1", "g2", "g3", "g4", "g5", "g6"], none⟩] ∧
    (mkAnalysisRecord "a.txt" "T"
        ⟨some "suitable", some 5, none, some ["g1", "g2", "g3", "g4", "g5", "g6"], none⟩
      : AnalysisRecord).result.key_gaps = some ["g1", "g2", "g3", "g4", "g5", "g6"] ∧
    ¬((["g1", "g2", "g3", "g4", "g5", "g6"] : List String).length ≤ 5) :=
  ⟨rfl, rfl, rfl, rfl, by decide⟩

/-- C7 amended: no bound on the `gaps` list is enforced anywhere — the
≤ 5 bound exists only as prose in the prompt and the schema description
sent to the service. Every accepted result's entry stores the `gaps`
list verbatim, whatever its length. -/
theorem gaps_preserved_amended (svc : JobFile → ServiceResponse) (now : String)
    (st : LoopState) (f : JobFile) (p : JobSuitabilityResult) (s : String)
    (h : svc f = ServiceResponse.structured p) (hs : p.suitability_status = some s) :
    ∃ entry, cacheGet ((stepJob svc now st f).cache) f.name = some entry ∧
      entry.result.key_gaps = p.key_gaps ∧ entry ∈ (stepJob svc now st f).disk := by
  obtain ⟨q, hq, hcache, hdisk⟩ := @stepJob_commit svc now st f ⟨p, s, h, hs⟩
  rw [h] at hq
  have hpq : q = p := (ServiceResponse.structured.injEq .. ▸ hq).symm
  subst hpq
  refine ⟨mkAnalysisRecord f.name now q, ?_, rfl, ?_⟩
  · rw [hcache]
    exact cacheGet_cacheSet st.cache f.name (mkAnalysisRecord f.name now q)
  · rw [hdisk]
    unfold saveAnalysisCache
    rw [List.mem_insertionSort]
    exact mem_values_cacheSet st.cache f.name (mkAnalysisRecord f.name now q)

/-- Witness for C7 amended at the 6-gap payload. -/
theorem gaps_preserved_amended_witness :
    ∃ entry, cacheGet ((stepJob
        (fun _ => ServiceResponse.structured
          ⟨some "maybe_suitable", some 4, none, some ["a", "b", "c", "d", "e", "f"], none⟩)
        "T" ⟨[], [], 0, 0⟩ ⟨"jp", "c.txt"⟩).cache) "c.txt" = some entry ∧
      entry.result.key_gaps = some ["a", "b", "c", "d", "e", "f"] ∧
      entry ∈ (stepJob
        (fun _ => ServiceResponse.structured
          ⟨some "maybe_suitable", some 4, none, some ["a", "b", "c", "d", "e", "f"], none⟩)
        "T" ⟨[], [], 0, 0⟩ ⟨"jp", "c.txt"⟩).disk :=
  gaps_preserved_amended _ "T" ⟨[], [], 0, 0⟩ ⟨"jp", "c.txt"⟩
    ⟨some "maybe_suitable", some 4, none, some ["a", "b", "c", "d", "e", "f"], none⟩
    "maybe_suitable" rfl rfl

/-- C2 counterexample: a Ledger containing a score-less entry —
reachable through the unvalidated classifier path, since a payload
with a status but no `match_score` commits — breaks the sort. Three
upserts with scores 5, (absent), 7 persist the snapshot in insertion
order: every comparison against the score-less middle entry is
`NaN`, coerced to +0 ("equal"), so the stable sort moves nothing and
score 5 is persisted before score 7, violating non-increasing order
by position. -/
theorem ledger_sort_counterexample :
    (([JobFile.mk "d" "a.txt", JobFile.mk "d" "b.txt", JobFile.mk "d" "c.txt"].foldl
        (stepJob
          (fun f =>
            if f.name = "a.txt" then
              ServiceResponse.structured ⟨some "suitable", some 5, none, none, none⟩
            else if f.name = "b.txt" then
              ServiceResponse.structured ⟨some "suitable", none, none, none, none⟩
            else ServiceResponse.structured ⟨some "suitable", some 7, none, none, none⟩)
          "T")
        ⟨[], [], 0, 0⟩).disk).map (fun r => r.result.match_score) =
      [some 5, none, some 7] ∧
    ¬((7 : Int) ≤ 5) :=
  ⟨rfl, by decide⟩

/-- C2 amended: when every cache entry carries a numeric score, the
persisted snapshot is non-increasing in score by position; and
unconditionally, every save rewrites the whole snapshot (a permutation
of all cache values) and ties are deterministic under the modelled
stable sort (for every score, the subsequence of entries with that
score keeps its insertion order). For a cache with a score-less entry
the comparator is inconsistent (`NaN` coerced to +0) and sortedness is
not guaranteed. -/
theorem ledger_snapshot_sorted_amended (cache : AnalysisCache) :
    ((∀ r ∈ cacheValues cache, r.result.match_score.isSome = true) →
      List.Sorted scoredGE (saveAnalysisCache cache)) ∧
    (saveAnalysisCache cache).Perm (cacheValues cache) ∧
    ∀ sc : Int,
      (saveAnalysisCache cache).filter (fun r => decide (r.result.match_score = some sc)) =
        (cacheValues cache).filter (fun r => decide (r.result.match_score = some sc)) := by
  refine ⟨?_, List.perm_insertionSort sortLE (cacheValues cache),
    fun sc => filter_insertionSort_score sc (cacheValues cache)⟩
  intro h
  exact List.Pairwise.imp (fun hab => sortLE_imp_scoredGE hab)
    (sorted_insertionSort_scored (cacheValues cache) h)

/-- Witness for C2 amended on a two-entry, fully scored cache. -/
theorem ledger_snapshot_sorted_amended_witness :
    (∀ r ∈ cacheValues
        [("a.txt", mkAnalysisRecord "a.txt" "T" ⟨some "suitable", some 5, none, none, none⟩),
         ("c.txt", mkAnalysisRecord "c.txt" "T" ⟨some "suitable", some 7, none, none, none⟩)],
      r.result.match_score.isSome = true) ∧
    List.Sorted scoredGE (saveAnalysisCache
        [("a.txt", mkAnalysisRecord "a.txt" "T" ⟨some "suitable", some 5, none, none, none⟩),
         ("c.txt", mkAnalysisRecord "c.txt" "T" ⟨some "suitable", some 7, none, none, none⟩)]) ∧
    (saveAnalysisCache
        [("a.txt", mkAnalysisRecord "a.txt" "T" ⟨some "suitable", some 5, none, none, none⟩),
         ("c.txt", mkAnalysisRecord "c.txt" "T" ⟨some "suitable", some 7, none, none, none⟩)]).Perm
      (cacheValues
        [("a.txt", mkAnalysisRecord "a.txt" "T" ⟨some "suitable", some 5, none, none, none⟩),
         ("c.txt", mkAnalysisRecord "c.txt" "T" ⟨some "suitable", some 7, none, none, none⟩)]) ∧
    (saveAnalysisCache
        [("a.txt", mkAnalysisRecord "a.txt" "T" ⟨some "suitable", some 5, none, none, none⟩),
         ("c.txt", mkAnalysisRecord "c.txt" "T" ⟨some "suitable", some 7, none, none, none⟩)]).filter
        (fun r => decide (r.result.match_score = some (5 : Int))) =
      (cacheValues
        [("a.txt", mkAnalysisRecord "a.txt" "T" ⟨some "suitable", some 5, none, none, none⟩),
         ("c.txt", mkAnalysisRecord "c.txt" "T" ⟨some "suitable", some 7, none, none, none⟩)]).filter
        (fun r => decide (r.result.match_score = some (5 : Int))) :=
  ⟨by decide,
   (ledger_snapshot_sorted_amended _).1 (by decide),
   (ledger_snapshot_sorted_amended _).2.1,
   (ledger_snapshot_sorted_amended _).2.2 5⟩

lemma run_calls (d : List AnalysisRecord) (jf : List JobFile)
    (svc : JobFile → ServiceResponse) (now : String) :
    (run d jf svc now).calls = jobsToAnalyze (loadAnalysisCache d) jf := by
  unfold run
  by_cases h : (jobsToAnalyze (loadAnalysisCache d) jf).isEmpty
  · rw [if_pos h]
    exact (List.isEmpty_iff.1 h).symm
  · rw [if_neg h]

/-- C3: a record identifier already present in the Ledger at run start
is excluded from the computed work set, and the run never submits it to
the classification service (the submitted files are exactly the work
set). -/
theorem ledger_never_resubmitted (initialDisk : List AnalysisRecord)
    (jobFiles : List JobFile) (svc : JobFile → ServiceResponse) (now : String)
    (f : JobFile) (hmem : cacheMem (loadAnalysisCache initialDisk) f.name = true) :
    f ∉ jobsToAnalyze (loadAnalysisCache initialDisk) jobFiles ∧
    f ∉ (run initialDisk jobFiles svc now).calls := by
  have h1 : f ∉ jobsToAnalyze (loadAnalysisCache initialDisk) jobFiles := by
    intro hf
    have := (List.mem_filter.1 hf).2
    rw [hmem] at this
    simp at this
  exact ⟨h1, by rw [run_calls]; exact h1⟩

/-- Witness for C3: a one-file store whose single record is already in
the Ledger. -/
theorem ledger_never_resubmitted_witness :
    cacheMem (loadAnalysisCache
        [mkAnalysisRecord "a.txt" "T" ⟨some "suitable", some 9, none, none, none⟩])
      (JobFile.mk "d" "a.txt").name = true ∧
    (JobFile.mk "d" "a.txt") ∉ jobsToAnalyze
      (loadAnalysisCache
        [mkAnalysisRecord "a.txt" "T" ⟨some "suitable", some 9, none, none, none⟩])
      [JobFile.mk "d" "a.txt"] ∧
    (JobFile.mk "d" "a.txt") ∉ (run
      [mkAnalysisRecord "a.txt" "T" ⟨some "suitable", some 9, none, none, none⟩]
      [JobFile.mk "d" "a.txt"] (fun _ => ServiceResponse.failure "unused") "T2").calls := by
  refine ⟨by decide, ?_⟩
  have h := ledger_never_resubmitted
    [mkAnalysisRecord "a.txt" "T" ⟨some "suitable", some 9, none, none, none⟩]
    [JobFile.mk "d" "a.txt"] (fun _ => ServiceResponse.failure "unused") "T2"
    (JobFile.mk "d" "a.txt") (by decide)
  exact h

/-- C6 counterexample: with an empty work set (the only record-store
file already has a Ledger entry) the run regenerates only the detailed
summary report; the compact score ranking (top-matches file) is NOT
rewritten, contradicting the claim that both report outputs are
regenerated. -/
theorem empty_workset_reports_counterexample :
    jobsToAnalyze
      (loadAnalysisCache
        [mkAnalysisRecord "a.txt" "T" ⟨some "suitable", some 9, none, none, none⟩])
      [JobFile.mk "d" "a.txt"] = [] ∧
    (run [mkAnalysisRecord "a.txt" "T" ⟨some "suitable", some 9, none, none, none⟩]
        [JobFile.mk "d" "a.txt"] (fun _ => ServiceResponse.failure "unused") "T2").summary =
      some (generateSummaryReport "T2" (cacheValues (loadAnalysisCache
        [mkAnalysisRecord "a.txt" "T" ⟨some "suitable", some 9, none, none, none⟩]))) ∧
    (run [mkAnalysisRecord "a.txt" "T" ⟨some "suitable", some 9, none, none, none⟩]
        [JobFile.mk "d" "a.txt"] (fun _ => ServiceResponse.failure "unused") "T2").topMatches =
      none ∧
    (run [mkAnalysisRecord "a.txt" "T" ⟨some "suitable", some 9, none, none, none⟩]
        [JobFile.mk "d" "a.txt"] (fun _ => ServiceResponse.failure "unused") "T2").calls = [] := by
  have hW : jobsToAnalyze
      (loadAnalysisCache
        [mkAnalysisRecord "a.txt" "T" ⟨some "suitable", some 9, none, none, none⟩])
      [JobFile.mk "d" "a.txt"] = [] := by decide
  refine ⟨hW, ?_, ?_, ?_⟩ <;>
    · unfold run
      rw [if_pos (List.isEmpty_iff.2 hW)]

/-- C6 amended: when the work set is empty, the run makes no
classification calls and regenerates only the detailed summary report,
computed from the current Ledger snapshot (and the current time); the
compact score ranking is not rewritten, and results.json is left as
loaded. -/
theorem empty_workset_reports_amended (initialDisk : List AnalysisRecord)
    (jobFiles : List JobFile) (svc : JobFile → ServiceResponse) (now : String)
    (h : jobsToAnalyze (loadAnalysisCache initialDisk) jobFiles = []) :
    run initialDisk jobFiles svc now =
      { cache := loadAnalysisCache initialDisk, disk := initialDisk, calls := [],
        summary := some (generateSummaryReport now
          (cacheValues (loadAnalysisCache initialDisk))),
        topMatches := none } := by
  unfold run
  rw [if_pos (List.isEmpty_iff.2 h)]

/-- Witness for C6 amended on a concrete empty-work-set run. -/
theorem empty_workset_reports_amended_witness :
    run [mkAnalysisRecord "b.txt" "T" ⟨some "not_suitable", some 2, none, none, none⟩]
        [JobFile.mk "d" "b.txt"] (fun _ => ServiceResponse.failure "unused") "T9" =
      { cache := loadAnalysisCache
          [mkAnalysisRecord "b.txt" "T" ⟨some "not_suitable", some 2, none, none, none⟩],
        disk := [mkAnalysisRecord "b.txt" "T" ⟨some "not_suitable", some 2, none, none, none⟩],
        calls := [],
        summary := some (generateSummaryReport "T9" (cacheValues (loadAnalysisCache
          [mkAnalysisRecord "b.txt" "T" ⟨some "not_suitable", some 2, none, none, none⟩]))),
        topMatches := none } :=
  empty_workset_reports_amended
    [mkAnalysisRecord "b.txt" "T" ⟨some "not_suitable", some 2, none, none, none⟩]
    [JobFile.mk "d" "b.txt"] (fun _ => ServiceResponse.failure "unused") "T9" (by decide)

/-- C10: the detailed summary report's maybe-suitable section renders
exactly the first 20 maybe-suitable entries in snapshot order (its
length is `min 20` of the number of maybe-suitable entries, so entries
beyond 20 are omitted, and positions below 20 coincide with the
snapshot's maybe-suitable entries), while the suitable section has no
such cap: every suitable entry of the snapshot is listed. -/
theorem summary_report_sections (results : List AnalysisRecord) :
    summaryMaybeListed results = (maybeResults results).take 20 ∧
    (summaryMaybeListed results).length = min 20 (maybeResults results).length ∧
    (∀ i : Nat, i < 20 → (summaryMaybeListed results)[i]? = (maybeResults results)[i]?) ∧
    (∀ r ∈ summaryMaybeListed results, r ∈ maybeResults results) ∧
    (∀ r ∈ results, r.result.suitability_status = some "maybe_suitable" →
      r ∈ maybeResults results) ∧
    (∀ r ∈ results, r.result.suitability_status = some "suitable" →
      r ∈ suitableResults results) := by
  refine ⟨rfl, List.length_take 20 (maybeResults results), ?_, ?_, ?_, ?_⟩
  · intro i hi
    unfold summaryMaybeListed
    rw [List.getElem?_take]
    rw [if_pos hi]
  · intro r hr
    exact (List.take_sublist 20 (maybeResults results)).subset hr
  · intro r hr hst
    exact List.mem_filter.2 ⟨hr, by simp [hst]⟩
  · intro r hr hst
    exact List.mem_filter.2 ⟨hr, by simp [hst]⟩

/-- Witness for C10 on a two-entry snapshot with one suitable and one
maybe-suitable record. -/
theorem summary_report_sections_witness :
    summaryMaybeListed
        [mkAnalysisRecord "a.txt" "T" ⟨some "suitable", some 9, none, none, none⟩,
         mkAnalysisRecord "b.txt" "T" ⟨some "maybe_suitable", some 5, none, none, none⟩] =
      (maybeResults
        [mkAnalysisRecord "a.txt" "T" ⟨some "suitable", some 9, none, none, none⟩,
         mkAnalysisRecord "b.txt" "T" ⟨some "maybe_suitable", some 5, none, none, none⟩]).take 20 ∧
    (summaryMaybeListed
        [mkAnalysisRecord "a.txt" "T" ⟨some "suitable", some 9, none, none, none⟩,
         mkAnalysisRecord "b.txt" "T" ⟨some "maybe_suitable", some 5, none, none, none⟩])[0]? =
      (maybeResults
        [mkAnalysisRecord "a.txt" "T" ⟨some "suitable", some 9, none, none, none⟩,
         mkAnalysisRecord "b.txt" "T" ⟨some "maybe_suitable", some 5, none, none, none⟩])[0]? ∧
    mkAnalysisRecord "b.txt" "T" ⟨some "maybe_suitable", some 5, none, none, none⟩ ∈
      maybeResults
        [mkAnalysisRecord "a.txt" "T" ⟨some "suitable", some 9, none, none, none⟩,
         mkAnalysisRecord "b.txt" "T" ⟨some "maybe_suitable", some 5, none, none, none⟩] ∧
    mkAnalysisRecord "a.txt" "T" ⟨some "suitable", some 9, none, none, none⟩ ∈
      suitableResults
        [mkAnalysisRecord "a.txt" "T" ⟨some "suitable", some 9, none, none, none⟩,
         mkAnalysisRecord "b.txt" "T" ⟨some "maybe_suitable", some 5, none, none, none⟩] :=
  ⟨(summary_report_sections _).1,
   (summary_report_sections _).2.2.1 0 (by decide),
   (summary_report_sections _).2.2.2.2.1 _ (by simp) rfl,
   (summary_report_sections _).2.2.2.2.2 _ (by simp) rfl⟩

/-- C4: each successful classification is committed to results.json
immediately, so if the process is terminated right after the first `k`
work-set items (each of which committed), a fresh run over the same
job-postings directory computes a work set equal to exactly the
remaining items: the original work set with its first `k` items
removed. -/
theorem crash_safety_workset (initialDisk : List AnalysisRecord)
    (jobFiles : List JobFile) (svc : JobFile → ServiceResponse) (now : String) (k : Nat)
    (hnd : (jobFiles.map (fun f => f.name)).Nodup)
    (hk : k < (jobsToAnalyze (loadAnalysisCache initialDisk) jobFiles).length)
    (hsucc : ∀ f ∈ (jobsToAnalyze (loadAnalysisCache initialDisk) jobFiles).take k,
      stepCommits svc f) :
    (∀ (st : LoopState) (f : JobFile), stepCommits svc f →
      (stepJob svc now st f).disk = saveAnalysisCache ((stepJob svc now st f).cache)) ∧
    jobsToAnalyze (loadAnalysisCache ((runLoopState initialDisk jobFiles svc now k).disk))
        jobFiles =
      (jobsToAnalyze (loadAnalysisCache initialDisk) jobFiles).drop k := by
  refine ⟨?_, ?_⟩
  · intro st f hcf
    obtain ⟨p, _, hcache, hdiskf⟩ := @stepJob_commit svc now st f hcf
    rw [hdiskf, hcache]
  cases k with
  | zero =>
    show jobsToAnalyze (loadAnalysisCache initialDisk) jobFiles =
      (jobsToAnalyze (loadAnalysisCache initialDisk) jobFiles).drop 0
    rw [List.drop_zero]
  | succ k1 =>
    have hfs_ne : (jobsToAnalyze (loadAnalysisCache initialDisk) jobFiles).take (k1 + 1) ≠ [] := by
      rw [Ne, List.take_eq_nil_iff]
      push_neg
      refine ⟨Nat.succ_ne_zero k1, ?_⟩
      intro h
      rw [h] at hk
      simp at hk
    have hdisk : (runLoopState initialDisk jobFiles svc now (k1 + 1)).disk =
        saveAnalysisCache ((runLoopState initialDisk jobFiles svc now (k1 + 1)).cache) :=
      disk_foldl_commit _ _ hfs_ne hsucc
    have hko : cacheKeysOk ((runLoopState initialDisk jobFiles svc now (k1 + 1)).cache) :=
      cacheKeysOk_foldl_step _ _ (cacheKeysOk_load initialDisk)
    unfold jobsToAnalyze
    rw [hdisk]
    have hstep1 : ∀ f ∈ jobFiles,
        (!cacheMem (loadAnalysisCache
            (saveAnalysisCache ((runLoopState initialDisk jobFiles svc now (k1 + 1)).cache)))
          f.name) =
        ((decide (f.name ∉
            ((jobsToAnalyze (loadAnalysisCache initialDisk) jobFiles).take (k1 + 1)).map
              (fun f => f.name))) &&
          (!cacheMem (loadAnalysisCache initialDisk) f.name)) := by
      intro f _
      rw [cacheMem_load_save hko f.name]
      have hiff := @cacheMem_foldl_commit svc now
        ((jobsToAnalyze (loadAnalysisCache initialDisk) jobFiles).take (k1 + 1))
        { cache := loadAnalysisCache initialDisk, disk := initialDisk,
          successCount := 0, errorCount := 0 } f.name hsucc
      rw [Bool.eq_iff_iff]
      simp only [Bool.not_eq_true', Bool.and_eq_true, decide_eq_true_eq]
      constructor
      · intro hfalse
        have hnot : ¬(f.name ∈
            ((jobsToAnalyze (loadAnalysisCache initialDisk) jobFiles).take (k1 + 1)).map
              (fun f => f.name) ∨
            cacheMem (loadAnalysisCache initialDisk) f.name = true) := by
          intro hor
          have := hiff.2 hor
          rw [show (runLoopState initialDisk jobFiles svc now (k1 + 1)).cache =
            ((((jobsToAnalyze (loadAnalysisCache initialDisk) jobFiles).take (k1 + 1)).foldl
              (stepJob svc now)
              { cache := loadAnalysisCache initialDisk, disk := initialDisk,
                successCount := 0, errorCount := 0 })).cache from rfl] at hfalse
          rw [this] at hfalse
          simp at hfalse
        push_neg at hnot
        exact ⟨hnot.1, Bool.not_eq_true _ ▸ hnot.2⟩
      · intro ⟨hnm, hc0⟩
        rw [show ((((jobsToAnalyze (loadAnalysisCache initialDisk) jobFiles).take (k1 + 1)).foldl
            (stepJob svc now)
            { cache := loadAnalysisCache initialDisk, disk := initialDisk,
              successCount := 0, errorCount := 0 })).cache =
          (runLoopState initialDisk jobFiles svc now (k1 + 1)).cache from rfl] at hiff
        cases hmem : cacheMem ((runLoopState initialDisk jobFiles svc now (k1 + 1)).cache) f.name
        · rfl
        · rcases hiff.1 hmem with h1 | h2
          · exact absurd h1 hnm
          · rw [hc0] at h2
            exact absurd h2 (by simp)
    rw [List.filter_congr hstep1]
    have hcomm : ∀ f ∈ jobFiles,
        ((decide (f.name ∉
            ((jobsToAnalyze (loadAnalysisCache initialDisk) jobFiles).take (k1 + 1)).map
              (fun f => f.name))) &&
          (!cacheMem (loadAnalysisCache initialDisk) f.name)) =
        ((fun f => decide (f.name ∉
            ((jobsToAnalyze (loadAnalysisCache initialDisk) jobFiles).take (k1 + 1)).map
              (fun f => f.name))) f &&
          (fun f => !cacheMem (loadAnalysisCache initialDisk) f.name) f) := by
      intro f _
      rfl
    rw [List.filter_congr hcomm, ← List.filter_filter]
    have hWnd : ((jobsToAnalyze (loadAnalysisCache initialDisk) jobFiles).map
        (fun f => f.name)).Nodup :=
      hnd.sublist ((List.filter_sublist jobFiles).map (fun f => f.name))
    exact filter_not_mem_take (fun f => f.name)
      (jobsToAnalyze (loadAnalysisCache initialDisk) jobFiles) (k1 + 1) hWnd

/-- Witness for C4: two fresh job files, the service succeeds on both,
the process stops after committing item 1; the fresh work set is
exactly the remaining file. -/
theorem crash_safety_workset_witness :
    ([JobFile.mk "d" "a.txt", JobFile.mk "d" "b.txt"].map (fun f => f.name)).Nodup ∧
    1 < (jobsToAnalyze (loadAnalysisCache [])
      [JobFile.mk "d" "a.txt", JobFile.mk "d" "b.txt"]).length ∧
    jobsToAnalyze
        (loadAnalysisCache ((runLoopState []
          [JobFile.mk "d" "a.txt", JobFile.mk "d" "b.txt"]
          (fun _ => ServiceResponse.structured ⟨some "suitable", some 8, none, none, none⟩)
          "T" 1).disk))
        [JobFile.mk "d" "a.txt", JobFile.mk "d" "b.txt"] =
      (jobsToAnalyze (loadAnalysisCache [])
        [JobFile.mk "d" "a.txt", JobFile.mk "d" "b.txt"]).drop 1 :=
  ⟨by decide, by decide,
   (crash_safety_workset [] [JobFile.mk "d" "a.txt", JobFile.mk "d" "b.txt"]
     (fun _ => ServiceResponse.structured ⟨some "suitable", some 8, none, none, none⟩)
     "T" 1 (by decide) (by decide)
     (fun f _ => ⟨⟨some "suitable", some 8, none, none, none⟩, "suitable", rfl, rfl⟩)).2⟩
